import Mathlib

/-!
Verification of the tic-tac-toe game engine.

The development shallowly embeds the engine of `tic_tac_toe.py`:
the board, the rules (winner / draw detection), the minimax search with
alpha-beta pruning exactly as written in the source (including the fact
that the cutoff `break` only leaves the inner column loop while the outer
row loop continues), best-move selection, and the game-session transitions
(`start_game`, `handle_click`, `make_move`, `computer_move`,
`handle_timeout`).

Python `float('-inf')`/`float('inf')` together with the integer scores
-1, 0, 1 are embedded as `WithBot (WithTop ℤ)`: the order, `max` and `min`
on the embedded values agree with the float operations used by the source.
The recursion of `minimax` is driven by a fuel parameter; fuel `9` is an
upper bound for the number of empty cells of any board, so the fuel never
runs out on the calls the program performs.
-/

namespace TTT

/-- A player symbol, `'X'` or `'O'` in the source. -/
inductive Player where
  | X : Player
  | O : Player
deriving DecidableEq, Repr, Fintype

/-- The opposite symbol: `'O' if current_player == 'X' else 'X'`. -/
def Player.other : Player → Player
  | Player.X => Player.O
  | Player.O => Player.X

@[simp] theorem Player.other_other (p : Player) : p.other.other = p := by
  cases p <;> rfl

/-- A cell of the board: `None`, `'X'` or `'O'` in the source. -/
abbrev Cell := Option Player

/-- The 3x3 board `self.board`, one field per cell `board[i][j]`. -/
structure Board where
  a00 : Cell
  a01 : Cell
  a02 : Cell
  a10 : Cell
  a11 : Cell
  a12 : Cell
  a20 : Cell
  a21 : Cell
  a22 : Cell
deriving DecidableEq, Repr

/-- A coordinate pair `(row, col)`. -/
abbrev Pos := Fin 3 × Fin 3

/-- Reading `board[p.1][p.2]` (the final catch-all is only reached at
index `(2, 2)`, since a `Fin 3` value is 0, 1 or 2). -/
def Board.get (b : Board) (p : Pos) : Cell :=
  match p.1.val, p.2.val with
  | 0, 0 => b.a00
  | 0, 1 => b.a01
  | 0, 2 => b.a02
  | 1, 0 => b.a10
  | 1, 1 => b.a11
  | 1, 2 => b.a12
  | 2, 0 => b.a20
  | 2, 1 => b.a21
  | _, _ => b.a22

/-- Writing value `v` into cell `p`, `board[p.1][p.2] = v` (the final
catch-all is only reached at index `(2, 2)`). -/
def setCell (b : Board) (p : Pos) (v : Cell) : Board :=
  match p.1.val, p.2.val with
  | 0, 0 => { b with a00 := v }
  | 0, 1 => { b with a01 := v }
  | 0, 2 => { b with a02 := v }
  | 1, 0 => { b with a10 := v }
  | 1, 1 => { b with a11 := v }
  | 1, 2 => { b with a12 := v }
  | 2, 0 => { b with a20 := v }
  | 2, 1 => { b with a21 := v }
  | _, _ => { b with a22 := v }

/-- Scores and alpha/beta bounds: integers extended with the two
infinities, modelling the Python floats used by `minimax`
(whose finite values are only -1, 0, 1). -/
abbrev EInt := WithBot (WithTop ℤ)

/-- The board of a fresh game: `[[None]*3]*3`. -/
def emptyBoard : Board :=
  ⟨none, none, none, none, none, none, none, none, none⟩

/-- Row `i` of the board in column order, matching `for j in range(3)`. -/
def rowCells (i : Fin 3) : List Pos := [(i, 0), (i, 1), (i, 2)]

/-- The three rows in order, matching `for i in range(3)`. -/
def allRows : List (List Pos) := [rowCells 0, rowCells 1, rowCells 2]

/-- All nine cells in row-major order. -/
def allCells : List Pos := allRows.flatten

/-- `check_winner_on_board`: the eight win lines tested in source order
(three rows, three columns, the two diagonals); the first line whose
three cells hold the same non-empty symbol decides the result. -/
def check_winner_on_board (b : Board) : Option Player :=
  if b.a00 = b.a01 ∧ b.a01 = b.a02 ∧ b.a00 ≠ none then b.a00
  else if b.a10 = b.a11 ∧ b.a11 = b.a12 ∧ b.a10 ≠ none then b.a10
  else if b.a20 = b.a21 ∧ b.a21 = b.a22 ∧ b.a20 ≠ none then b.a20
  else if b.a00 = b.a10 ∧ b.a10 = b.a20 ∧ b.a00 ≠ none then b.a00
  else if b.a01 = b.a11 ∧ b.a11 = b.a21 ∧ b.a01 ≠ none then b.a01
  else if b.a02 = b.a12 ∧ b.a12 = b.a22 ∧ b.a02 ≠ none then b.a02
  else if b.a00 = b.a11 ∧ b.a11 = b.a22 ∧ b.a00 ≠ none then b.a00
  else if b.a02 = b.a11 ∧ b.a11 = b.a20 ∧ b.a02 ≠ none then b.a02
  else none

/-- `is_board_full`: every cell is occupied. -/
def is_board_full (b : Board) : Bool :=
  allCells.all (fun p => b.get p ≠ none)

/-- `is_draw`: the board is full and there is no winner. -/
def is_draw (b : Board) : Bool :=
  is_board_full b && (check_winner_on_board b).isNone

/-- The eight winning lines as cell triples (spec side, for stating what
winner detection means). -/
def winLines : List (List Pos) :=
  [[(0, 0), (0, 1), (0, 2)], [(1, 0), (1, 1), (1, 2)], [(2, 0), (2, 1), (2, 2)],
   [(0, 0), (1, 0), (2, 0)], [(0, 1), (1, 1), (2, 1)], [(0, 2), (1, 2), (2, 2)],
   [(0, 0), (1, 1), (2, 2)], [(0, 2), (1, 1), (2, 0)]]

/-- Player `p` has a completed line on `b` (spec side). -/
def hasLine (b : Board) (p : Player) : Bool :=
  winLines.any (fun l => l.all (fun q => b.get q = some p))

/-- The outcome of a position as the session reports it. -/
inductive Outcome where
  | inProgress : Outcome
  | win : Player → Outcome
  | draw : Outcome
deriving DecidableEq, Repr

/-- Outcome evaluation exactly as `make_move` derives it: first the winner
check, then the draw check, otherwise the game goes on. -/
def evaluate (b : Board) : Outcome :=
  match check_winner_on_board b with
  | some p => Outcome.win p
  | none => if is_draw b then Outcome.draw else Outcome.inProgress

example : evaluate emptyBoard = Outcome.inProgress := by decide
example : check_winner_on_board (setCell emptyBoard (0, 0) (some Player.X)) = none := by decide
example : (∀ p : Pos, p ∈ allCells) := by decide

/-! ## The search engine -/

/-- The score `-1` (the human player `X` wins). -/
def scoreLoss : EInt := ((-1 : ℤ) : WithTop ℤ)

/-- The terminal checks at the head of `minimax`: winner `'O'` scores 1,
winner `'X'` scores -1, a full board scores 0; otherwise the position is
searched further. -/
def terminalScore (b : Board) : Option EInt :=
  match check_winner_on_board b with
  | some Player.O => some 1
  | some Player.X => some scoreLoss
  | none => if is_board_full b then some (0 : EInt) else none

/-- One row of the maximizing loop of `minimax`.  State `(m, α, board)`:
`m` is `max_eval`, `α` is `alpha`; the recursive evaluation is threaded
through the board to model the in-place `board[i][j] = 'O'` followed by
`board[i][j] = None`.  `if beta <= alpha: break` leaves only this row. -/
def maxRow (rec : Board → EInt → EInt → EInt × Board) (β : EInt) :
    List Pos → Board → EInt → EInt → EInt × EInt × Board
  | [], b, m, α => (m, α, b)
  | p :: rest, b, m, α =>
    if b.get p = none then
      let res := rec (setCell b p (some Player.O)) α β
      let b2 := setCell res.2 p none
      let m2 := m ⊔ res.1
      let α2 := α ⊔ res.1
      if β ≤ α2 then (m2, α2, b2)
      else maxRow rec β rest b2 m2 α2
    else maxRow rec β rest b m α

/-- The outer row loop of the maximizing branch: the rows run in order and
`max_eval`/`alpha` persist across rows (a `break` in a row does not stop
the following rows). -/
def maxRows (rec : Board → EInt → EInt → EInt × Board) (β : EInt) :
    List (List Pos) → Board → EInt → EInt → EInt × EInt × Board
  | [], b, m, α => (m, α, b)
  | row :: rows, b, m, α =>
    let s := maxRow rec β row b m α
    maxRows rec β rows s.2.2 s.1 s.2.1

/-- One row of the minimizing loop of `minimax`; state `(m, β, board)`
with `m` for `min_eval` and `β` for `beta`. -/
def minRow (rec : Board → EInt → EInt → EInt × Board) (α : EInt) :
    List Pos → Board → EInt → EInt → EInt × EInt × Board
  | [], b, m, β => (m, β, b)
  | p :: rest, b, m, β =>
    if b.get p = none then
      let res := rec (setCell b p (some Player.X)) α β
      let b2 := setCell res.2 p none
      let m2 := m ⊓ res.1
      let β2 := β ⊓ res.1
      if β2 ≤ α then (m2, β2, b2)
      else minRow rec α rest b2 m2 β2
    else minRow rec α rest b m β

/-- The outer row loop of the minimizing branch. -/
def minRows (rec : Board → EInt → EInt → EInt × Board) (α : EInt) :
    List (List Pos) → Board → EInt → EInt → EInt × EInt × Board
  | [], b, m, β => (m, β, b)
  | row :: rows, b, m, β =>
    let s := minRow rec α row b m β
    minRows rec α rows s.2.2 s.1 s.2.1

/-- `minimax(board, depth, is_maximizing, alpha, beta)`.  The result pairs
the returned score with the board as left behind by the call (the source
mutates and restores `self.board` in place).  The fuel argument only
bounds the recursion depth; one unit is consumed per ply, and the search
never needs more units than the board has empty cells. -/
def minimax : Nat → Board → Bool → EInt → EInt → EInt × Board
  | 0, b, _, _, _ => ((terminalScore b).getD 0, b)
  | fuel + 1, b, isMax, α, β =>
    match terminalScore b with
    | some v => (v, b)
    | none =>
      if isMax then
        let s := maxRows (fun b2 α2 β2 => minimax fuel b2 false α2 β2) β allRows b ⊥ α
        (s.1, s.2.2)
      else
        let s := minRows (fun b2 α2 β2 => minimax fuel b2 true α2 β2) α allRows b ⊤ β
        (s.1, s.2.2)

/-- Plain fold of one row of child scores for the maximizing player
(spec side: the unpruned minimax recursion). -/
def foldMax (f : Board → EInt) (b : Board) : List Pos → EInt → EInt
  | [], m => m
  | p :: rest, m =>
    if b.get p = none then foldMax f b rest (m ⊔ f (setCell b p (some Player.O)))
    else foldMax f b rest m

/-- Plain fold over all rows, maximizing. -/
def foldMaxRows (f : Board → EInt) (b : Board) : List (List Pos) → EInt → EInt
  | [], m => m
  | row :: rows, m => foldMaxRows f b rows (foldMax f b row m)

/-- Plain fold of one row of child scores for the minimizing player. -/
def foldMin (f : Board → EInt) (b : Board) : List Pos → EInt → EInt
  | [], m => m
  | p :: rest, m =>
    if b.get p = none then foldMin f b rest (m ⊓ f (setCell b p (some Player.X)))
    else foldMin f b rest m

/-- Plain fold over all rows, minimizing. -/
def foldMinRows (f : Board → EInt) (b : Board) : List (List Pos) → EInt → EInt
  | [], m => m
  | row :: rows, m => foldMinRows f b rows (foldMin f b row m)

/-- The plain, unpruned minimax recursion the specification describes:
same terminal scores, the maximizing side takes the maximum over all
children, the minimizing side the minimum, no alpha-beta bookkeeping. -/
def plainMinimax : Nat → Board → Bool → EInt
  | 0, b, _ => (terminalScore b).getD 0
  | fuel + 1, b, isMax =>
    match terminalScore b with
    | some v => v
    | none =>
      if isMax then foldMaxRows (fun b2 => plainMinimax fuel b2 false) b allRows ⊥
      else foldMinRows (fun b2 => plainMinimax fuel b2 true) b allRows ⊤

/-- The scan of `get_best_move`: for each empty cell in row-major order,
place `'O'`, score the position by `minimax(board, 0, False, -inf, inf)`,
restore the cell, and remember the move whenever the score strictly
improves on the best score so far. -/
def gbmLoop : List Pos → Board → EInt → Pos → Pos × Board
  | [], b, _, bm => (bm, b)
  | p :: rest, b, bs, bm =>
    if b.get p = none then
      let res := minimax 9 (setCell b p (some Player.O)) false ⊥ ⊤
      let b2 := setCell res.2 p none
      if bs < res.1 then gbmLoop rest b2 res.1 p
      else gbmLoop rest b2 bs bm
    else gbmLoop rest b bs bm

/-- `get_best_move`: initial best score `-inf`, initial best move
`(0, 0)`, scan over all cells; the final board of the loop is reported to
state that the search restores it. -/
def get_best_move (b : Board) : Pos × Board :=
  gbmLoop allCells b ⊥ (0, 0)

/-! ## Board lemmas -/

theorem get_setCell (b : Board) (p q : Pos) (v : Cell) :
    (setCell b p v).get q = if q = p then v else b.get q := by
  obtain ⟨⟨i, hi⟩, j, hj⟩ := p
  obtain ⟨⟨k, hk⟩, l, hl⟩ := q
  interval_cases i <;> interval_cases j <;> interval_cases k <;> interval_cases l <;>
    simp [setCell, Board.get, Prod.ext_iff, Fin.ext_iff]

theorem get_setCell_self (b : Board) (p : Pos) (v : Cell) :
    (setCell b p v).get p = v := by
  rw [get_setCell, if_pos rfl]

theorem get_setCell_ne (b : Board) (p q : Pos) (v : Cell) (h : q ≠ p) :
    (setCell b p v).get q = b.get q := by
  rw [get_setCell, if_neg h]

theorem setCell_setCell (b : Board) (p : Pos) (v w : Cell) :
    setCell (setCell b p v) p w = setCell b p w := by
  obtain ⟨⟨i, hi⟩, j, hj⟩ := p
  interval_cases i <;> interval_cases j <;> rfl

theorem setCell_get (b : Board) (p : Pos) : setCell b p (b.get p) = b := by
  obtain ⟨⟨i, hi⟩, j, hj⟩ := p
  interval_cases i <;> interval_cases j <;> rfl

theorem setCell_restore (b : Board) (p : Pos) (v : Cell) (h : b.get p = none) :
    setCell (setCell b p v) p none = b := by
  rw [setCell_setCell, ← h, setCell_get]

/-! ## The search restores the board (mutate-then-undo) -/

theorem maxRow_board (rec : Board → EInt → EInt → EInt × Board) (β : EInt)
    (hrec : ∀ b α2 β2, (rec b α2 β2).2 = b) :
    ∀ (cells : List Pos) (b : Board) (m α : EInt),
      (maxRow rec β cells b m α).2.2 = b := by
  intro cells
  induction cells with
  | nil => intro b m α; rfl
  | cons p rest ih =>
    intro b m α
    simp only [maxRow]
    by_cases hp : b.get p = none
    · simp only [hp, if_true, eq_self_iff_true]
      rw [hrec]
      by_cases hcut : β ≤ α ⊔ (rec (setCell b p (some Player.O)) α β).1
      · simp only [hcut, if_true]
        exact setCell_restore b p _ hp
      · simp only [hcut, if_false]
        rw [ih, setCell_restore b p _ hp]
    · simp only [hp, if_false]
      exact ih b m α

theorem maxRows_board (rec : Board → EInt → EInt → EInt × Board) (β : EInt)
    (hrec : ∀ b α2 β2, (rec b α2 β2).2 = b) :
    ∀ (rows : List (List Pos)) (b : Board) (m α : EInt),
      (maxRows rec β rows b m α).2.2 = b := by
  intro rows
  induction rows with
  | nil => intro b m α; rfl
  | cons row rows ih =>
    intro b m α
    simp only [maxRows]
    rw [ih, maxRow_board rec β hrec]

theorem minRow_board (rec : Board → EInt → EInt → EInt × Board) (α : EInt)
    (hrec : ∀ b α2 β2, (rec b α2 β2).2 = b) :
    ∀ (cells : List Pos) (b : Board) (m β : EInt),
      (minRow rec α cells b m β).2.2 = b := by
  intro cells
  induction cells with
  | nil => intro b m β; rfl
  | cons p rest ih =>
    intro b m β
    simp only [minRow]
    by_cases hp : b.get p = none
    · simp only [hp, if_true, eq_self_iff_true]
      rw [hrec]
      by_cases hcut : β ⊓ (rec (setCell b p (some Player.X)) α β).1 ≤ α
      · simp only [hcut, if_true]
        exact setCell_restore b p _ hp
      · simp only [hcut, if_false]
        rw [ih, setCell_restore b p _ hp]
    · simp only [hp, if_false]
      exact ih b m β

theorem minRows_board (rec : Board → EInt → EInt → EInt × Board) (α : EInt)
    (hrec : ∀ b α2 β2, (rec b α2 β2).2 = b) :
    ∀ (rows : List (List Pos)) (b : Board) (m β : EInt),
      (minRows rec α rows b m β).2.2 = b := by
  intro rows
  induction rows with
  | nil => intro b m β; rfl
  | cons row rows ih =>
    intro b m β
    simp only [minRows]
    rw [ih, minRow_board rec α hrec]

/-- `minimax` always hands back the board it received. -/
theorem minimax_board :
    ∀ (fuel : Nat) (b : Board) (isMax : Bool) (α β : EInt),
      (minimax fuel b isMax α β).2 = b := by
  intro fuel
  induction fuel with
  | zero => intro b isMax α β; rfl
  | succ fuel ih =>
    intro b isMax α β
    simp only [minimax]
    cases terminalScore b with
    | some v => rfl
    | none =>
      by_cases hm : isMax
      · simp only [hm, if_true]
        exact maxRows_board _ β (fun b2 α2 β2 => ih b2 false α2 β2) allRows b ⊥ α
      · simp only [hm, if_false]
        exact minRows_board _ α (fun b2 α2 β2 => ih b2 true α2 β2) allRows b ⊤ β

theorem gbmLoop_board :
    ∀ (cells : List Pos) (b : Board) (bs : EInt) (bm : Pos),
      (gbmLoop cells b bs bm).2 = b := by
  intro cells
  induction cells with
  | nil => intro b bs bm; rfl
  | cons p rest ih =>
    intro b bs bm
    simp only [gbmLoop]
    by_cases hp : b.get p = none
    · simp only [hp, if_true, eq_self_iff_true]
      rw [minimax_board]
      by_cases himp : bs < (minimax 9 (setCell b p (some Player.O)) false ⊥ ⊤).1
      · simp only [himp, if_true]
        rw [ih, setCell_restore b p _ hp]
      · simp only [himp, if_false]
        rw [ih, setCell_restore b p _ hp]
    · simp only [hp, if_false]
      exact ih b bs bm

theorem get_best_move_board (b : Board) : (get_best_move b).2 = b :=
  gbmLoop_board allCells b ⊥ (0, 0)

/-- C5: `get_best_move` and `minimax` leave the board exactly as they
found it: after either call returns, every cell holds the value it held
before the call — each tentative mark placed during the search is removed
before returning. -/
theorem search_restores_board :
    ∀ (b : Board) (fuel : Nat) (isMax : Bool) (α β : EInt),
      (∀ p : Pos, ((minimax fuel b isMax α β).2).get p = b.get p) ∧
      (∀ p : Pos, ((get_best_move b).2).get p = b.get p) := by
  intro b fuel isMax α β
  constructor
  · intro p; rw [minimax_board]
  · intro p; rw [get_best_move_board]

/-! ## Winner detection versus the winning lines -/

theorem hasLine_of_mem (b : Board) (p : Player) (l : List Pos)
    (hl : l ∈ winLines) (h : ∀ q ∈ l, b.get q = some p) : hasLine b p = true := by
  simp only [hasLine, List.any_eq_true]
  refine ⟨l, hl, ?_⟩
  simp only [List.all_eq_true, decide_eq_true_eq]
  exact h

theorem check_winner_sound (b : Board) (p : Player)
    (h : check_winner_on_board b = some p) : hasLine b p = true := by
  unfold check_winner_on_board at h
  split_ifs at h with h1 h2 h3 h4 h5 h6 h7 h8
  · obtain ⟨e1, e2, _⟩ := h1
    apply hasLine_of_mem b p [(0, 0), (0, 1), (0, 2)] (by simp [winLines])
    intro q hq
    fin_cases hq
    · exact h
    · exact e1.symm.trans h
    · exact (e1.trans e2).symm.trans h
  · obtain ⟨e1, e2, _⟩ := h2
    apply hasLine_of_mem b p [(1, 0), (1, 1), (1, 2)] (by simp [winLines])
    intro q hq
    fin_cases hq
    · exact h
    · exact e1.symm.trans h
    · exact (e1.trans e2).symm.trans h
  · obtain ⟨e1, e2, _⟩ := h3
    apply hasLine_of_mem b p [(2, 0), (2, 1), (2, 2)] (by simp [winLines])
    intro q hq
    fin_cases hq
    · exact h
    · exact e1.symm.trans h
    · exact (e1.trans e2).symm.trans h
  · obtain ⟨e1, e2, _⟩ := h4
    apply hasLine_of_mem b p [(0, 0), (1, 0), (2, 0)] (by simp [winLines])
    intro q hq
    fin_cases hq
    · exact h
    · exact e1.symm.trans h
    · exact (e1.trans e2).symm.trans h
  · obtain ⟨e1, e2, _⟩ := h5
    apply hasLine_of_mem b p [(0, 1), (1, 1), (2, 1)] (by simp [winLines])
    intro q hq
    fin_cases hq
    · exact h
    · exact e1.symm.trans h
    · exact (e1.trans e2).symm.trans h
  · obtain ⟨e1, e2, _⟩ := h6
    apply hasLine_of_mem b p [(0, 2), (1, 2), (2, 2)] (by simp [winLines])
    intro q hq
    fin_cases hq
    · exact h
    · exact e1.symm.trans h
    · exact (e1.trans e2).symm.trans h
  · obtain ⟨e1, e2, _⟩ := h7
    apply hasLine_of_mem b p [(0, 0), (1, 1), (2, 2)] (by simp [winLines])
    intro q hq
    fin_cases hq
    · exact h
    · exact e1.symm.trans h
    · exact (e1.trans e2).symm.trans h
  · obtain ⟨e1, e2, _⟩ := h8
    apply hasLine_of_mem b p [(0, 2), (1, 1), (2, 0)] (by simp [winLines])
    intro q hq
    fin_cases hq
    · exact h
    · exact e1.symm.trans h
    · exact (e1.trans e2).symm.trans h

theorem check_winner_none (b : Board)
    (h : check_winner_on_board b = none) : ∀ p, hasLine b p = false := by
  intro p
  unfold check_winner_on_board at h
  split_ifs at h with h1 h2 h3 h4 h5 h6 h7 h8
  · exact absurd h h1.2.2
  · exact absurd h h2.2.2
  · exact absurd h h3.2.2
  · exact absurd h h4.2.2
  · exact absurd h h5.2.2
  · exact absurd h h6.2.2
  · exact absurd h h7.2.2
  · exact absurd h h8.2.2
  · rw [← Bool.not_eq_true]
    intro hcon
    simp only [hasLine, List.any_eq_true] at hcon
    obtain ⟨l, hl, hall⟩ := hcon
    simp only [List.all_eq_true, decide_eq_true_eq] at hall
    fin_cases hl
    · have c1 := hall (0, 0) (by simp)
      have c2 := hall (0, 1) (by simp)
      have c3 := hall (0, 2) (by simp)
      simp only [Board.get] at c1 c2 c3
      exact h1 ⟨c1.trans c2.symm, c2.trans c3.symm, by simp [c1]⟩
    · have c1 := hall (1, 0) (by simp)
      have c2 := hall (1, 1) (by simp)
      have c3 := hall (1, 2) (by simp)
      simp only [Board.get] at c1 c2 c3
      exact h2 ⟨c1.trans c2.symm, c2.trans c3.symm, by simp [c1]⟩
    · have c1 := hall (2, 0) (by simp)
      have c2 := hall (2, 1) (by simp)
      have c3 := hall (2, 2) (by simp)
      simp only [Board.get] at c1 c2 c3
      exact h3 ⟨c1.trans c2.symm, c2.trans c3.symm, by simp [c1]⟩
    · have c1 := hall (0, 0) (by simp)
      have c2 := hall (1, 0) (by simp)
      have c3 := hall (2, 0) (by simp)
      simp only [Board.get] at c1 c2 c3
      exact h4 ⟨c1.trans c2.symm, c2.trans c3.symm, by simp [c1]⟩
    · have c1 := hall (0, 1) (by simp)
      have c2 := hall (1, 1) (by simp)
      have c3 := hall (2, 1) (by simp)
      simp only [Board.get] at c1 c2 c3
      exact h5 ⟨c1.trans c2.symm, c2.trans c3.symm, by simp [c1]⟩
    · have c1 := hall (0, 2) (by simp)
      have c2 := hall (1, 2) (by simp)
      have c3 := hall (2, 2) (by simp)
      simp only [Board.get] at c1 c2 c3
      exact h6 ⟨c1.trans c2.symm, c2.trans c3.symm, by simp [c1]⟩
    · have c1 := hall (0, 0) (by simp)
      have c2 := hall (1, 1) (by simp)
      have c3 := hall (2, 2) (by simp)
      simp only [Board.get] at c1 c2 c3
      exact h7 ⟨c1.trans c2.symm, c2.trans c3.symm, by simp [c1]⟩
    · have c1 := hall (0, 2) (by simp)
      have c2 := hall (1, 1) (by simp)
      have c3 := hall (2, 0) (by simp)
      simp only [Board.get] at c1 c2 c3
      exact h8 ⟨c1.trans c2.symm, c2.trans c3.symm, by simp [c1]⟩

theorem hasLine_check_winner (b : Board) (p : Player)
    (h : hasLine b p = true) : check_winner_on_board b ≠ none := by
  intro hc
  have h2 := check_winner_none b hc p
  rw [h] at h2
  exact Bool.true_eq_false.mp h2

/-- A board on which both sides have a completed line (unreachable in a
real game, but a perfectly good `Board` value). -/
def twoLineBoard : Board :=
  ⟨some Player.X, some Player.X, some Player.X,
   some Player.O, some Player.O, some Player.O,
   none, none, none⟩

/-- C3, counterexample: on a board where both `X` and `O` have completed
lines, `O` has a line yet evaluation does not report `Win O` (the row scan
finds `X` first), so «returns `Win(s)` exactly when some line holds three
identical symbols `s`» fails for arbitrary boards. -/
theorem check_winner_two_lines_counterexample :
    hasLine twoLineBoard Player.O = true ∧
      check_winner_on_board twoLineBoard = some Player.X ∧
      evaluate twoLineBoard ≠ Outcome.win Player.O := by decide

/-- C3 (amended): restricted to boards on which at most one side has a
completed line, `check_winner_on_board` returns `some s` exactly when `s`
owns a line; on every board `is_draw` holds exactly when no cell is empty
and nobody has a line; a full board without a line evaluates to `Draw`. -/
theorem evaluate_characterization :
    ∀ b : Board,
      ((∀ p q : Player, hasLine b p = true → hasLine b q = true → p = q) →
        ∀ p : Player, (check_winner_on_board b = some p ↔ hasLine b p = true))
      ∧ (is_draw b = true ↔
          ((∀ q ∈ allCells, b.get q ≠ none) ∧ ∀ p : Player, hasLine b p = false))
      ∧ (is_board_full b = true → check_winner_on_board b = none →
          evaluate b = Outcome.draw) := by
  intro b
  refine ⟨?_, ?_, ?_⟩
  · intro hu p
    constructor
    · exact check_winner_sound b p
    · intro hp
      rcases hcw : check_winner_on_board b with _ | q
      · exact absurd hcw (hasLine_check_winner b p hp)
      · have hq := check_winner_sound b q hcw
        rw [hu q p hq hp]
  · constructor
    · intro hd
      rw [is_draw, Bool.and_eq_true] at hd
      obtain ⟨hfull, hnone⟩ := hd
      rw [Option.isNone_iff_eq_none] at hnone
      constructor
      · intro q hq
        rw [is_board_full, List.all_eq_true] at hfull
        simpa using hfull q hq
      · exact check_winner_none b hnone
    · intro hd
      obtain ⟨hfill, hnl⟩ := hd
      rw [is_draw, Bool.and_eq_true]
      constructor
      · rw [is_board_full, List.all_eq_true]
        intro q hq
        simpa using hfill q hq
      · rw [Option.isNone_iff_eq_none]
        rcases hcw : check_winner_on_board b with _ | q
        · rfl
        · have hq := check_winner_sound b q hcw
          rw [hnl q] at hq
          exact absurd hq (by simp)
  · intro hfull hnone
    rw [evaluate, hnone]
    simp [is_draw, hfull, hnone]

/-- C3 witness board: `X` owns the top row, no other line is complete. -/
def xRowBoard : Board :=
  ⟨some Player.X, some Player.X, some Player.X,
   some Player.O, some Player.O, none,
   none, none, none⟩

theorem evaluate_characterization_witness :
    check_winner_on_board xRowBoard = some Player.X :=
  ((evaluate_characterization xRowBoard).1 (by decide) Player.X).mpr (by decide)

/-! ## Reachable boards have at most one winner (C4) -/

/-- Board reachability as the claim states it: starting from the empty
board, the sides alternate placing their mark on an empty cell, and play
stops as soon as a winning line exists.  The `Player` component is the
side to move next. -/
inductive BReach : Board → Player → Prop
  | base : BReach emptyBoard Player.X
  | move (b : Board) (p : Player) (pos : Pos) :
      BReach b p → check_winner_on_board b = none → b.get pos = none →
      BReach (setCell b pos (some p)) p.other

theorem hasLine_setCell_or (b : Board) (pos : Pos) (v q : Player)
    (h : hasLine (setCell b pos (some v)) q = true) :
    hasLine b q = true ∨ q = v := by
  simp only [hasLine, List.any_eq_true] at h
  obtain ⟨l, hl, hall⟩ := h
  simp only [List.all_eq_true, decide_eq_true_eq] at hall
  by_cases hmem : pos ∈ l
  · right
    have hv := hall pos hmem
    rw [get_setCell_self] at hv
    exact (Option.some.inj hv).symm
  · left
    simp only [hasLine, List.any_eq_true]
    refine ⟨l, hl, ?_⟩
    simp only [List.all_eq_true, decide_eq_true_eq]
    intro q2 hq2
    have hne : q2 ≠ pos := fun he => hmem (he ▸ hq2)
    rw [← get_setCell_ne b pos q2 (some v) hne]
    exact hall q2 hq2

theorem breach_winner (b : Board) (p : Player) (hr : BReach b p) :
    ∀ q, hasLine b q = true → q = p.other := by
  induction hr with
  | base =>
    intro q hq
    have hf : hasLine emptyBoard q = false := by cases q <;> decide
    rw [hq] at hf
    exact absurd hf (by simp)
  | move b p pos hr hw hc ih =>
    intro q hq
    rcases hasLine_setCell_or b pos p q hq with hb | he
    · have hf := check_winner_none b hw q
      rw [hb] at hf
      exact absurd hf (by simp)
    · rw [he, Player.other_other]

/-- C4: on every board reachable from the empty board by alternating
legal moves that stop as soon as a winning line exists, at most one side
has a completed line, so evaluation never has two distinct winning sides
to report. -/
theorem reachable_at_most_one_winner (b : Board) (p : Player) (hr : BReach b p)
    (q r : Player) (hq : hasLine b q = true) (hrl : hasLine b r = true) : q = r := by
  rw [breach_winner b p hr q hq, breach_winner b p hr r hrl]

theorem reachable_at_most_one_winner_witness : Player.X = Player.X := by
  have h0 : BReach emptyBoard Player.X := BReach.base
  have h1 := BReach.move _ _ ((0 : Fin 3), (0 : Fin 3)) h0 (by decide) (by decide)
  have h2 := BReach.move _ _ ((1 : Fin 3), (0 : Fin 3)) h1 (by decide) (by decide)
  have h3 := BReach.move _ _ ((0 : Fin 3), (1 : Fin 3)) h2 (by decide) (by decide)
  have h4 := BReach.move _ _ ((1 : Fin 3), (1 : Fin 3)) h3 (by decide) (by decide)
  have h5 := BReach.move _ _ ((0 : Fin 3), (2 : Fin 3)) h4 (by decide) (by decide)
  exact reachable_at_most_one_winner _ _ h5 Player.X Player.X (by decide) (by decide)

/-! ## Alpha-beta pruning computes the plain minimax value (C2)

The source's `break` leaves only the inner column loop, so after a cutoff
the remaining rows still evaluate their first empty cell, now with
`alpha >= beta`.  The invariant that survives this is the trichotomy
proved below: on a proper window `a < β` the call is exact when the plain
value lies strictly inside the window, returns something `≥ β` when the
plain value is `≥ β`, and something `≤ a` when the plain value is `≤ a`. -/

section FoldBounds

variable (recP : Board → EInt)

theorem foldMax_acc_le (b : Board) :
    ∀ (cells : List Pos) (m m2 : EInt), m ≤ m2 → foldMax recP b cells m ≤ foldMax recP b cells m2 := by
  intro cells
  induction cells with
  | nil => intro m m2 h; exact h
  | cons p rest ih =>
    intro m m2 h
    simp only [foldMax]
    by_cases hp : b.get p = none
    · simp only [hp, if_true]
      exact ih _ _ (sup_le_sup_right h _)
    · simp only [hp, if_false]
      exact ih _ _ h

theorem le_foldMax_acc (b : Board) :
    ∀ (cells : List Pos) (m : EInt), m ≤ foldMax recP b cells m := by
  intro cells
  induction cells with
  | nil => intro m; exact le_refl m
  | cons p rest ih =>
    intro m
    simp only [foldMax]
    by_cases hp : b.get p = none
    · simp only [hp, if_true]
      exact le_trans le_sup_left (ih _)
    · simp only [hp, if_false]
      exact ih m

theorem le_foldMax_of_mem (b : Board) :
    ∀ (cells : List Pos) (m : EInt) (p : Pos), p ∈ cells → b.get p = none →
      recP (setCell b p (some Player.O)) ≤ foldMax recP b cells m := by
  intro cells
  induction cells with
  | nil => intro m p hp; exact absurd hp (List.not_mem_nil p)
  | cons q rest ih =>
    intro m p hp hem
    rcases List.mem_cons.mp hp with he | hrest
    · subst he
      simp only [foldMax, hem, if_true]
      exact le_trans le_sup_right (le_foldMax_acc recP b rest _)
    · simp only [foldMax]
      by_cases hq : b.get q = none
      · simp only [hq, if_true]
        exact ih _ p hrest hem
      · simp only [hq, if_false]
        exact ih m p hrest hem

theorem le_foldMaxRows_acc (b : Board) :
    ∀ (rows : List (List Pos)) (m : EInt), m ≤ foldMaxRows recP b rows m := by
  intro rows
  induction rows with
  | nil => intro m; exact le_refl m
  | cons row rows ih =>
    intro m
    simp only [foldMaxRows]
    exact le_trans (le_foldMax_acc recP b row m) (ih _)

theorem foldMaxRows_acc_le (b : Board) :
    ∀ (rows : List (List Pos)) (m m2 : EInt), m ≤ m2 →
      foldMaxRows recP b rows m ≤ foldMaxRows recP b rows m2 := by
  intro rows
  induction rows with
  | nil => intro m m2 h; exact h
  | cons row rows ih =>
    intro m m2 h
    simp only [foldMaxRows]
    exact ih _ _ (foldMax_acc_le recP b row m m2 h)

theorem le_foldMaxRows_of_mem (b : Board) :
    ∀ (rows : List (List Pos)) (m : EInt) (row : List Pos) (p : Pos),
      row ∈ rows → p ∈ row → b.get p = none →
      recP (setCell b p (some Player.O)) ≤ foldMaxRows recP b rows m := by
  intro rows
  induction rows with
  | nil => intro m row p hrow; exact absurd hrow (List.not_mem_nil row)
  | cons r rows ih =>
    intro m row p hrow hp hem
    rcases List.mem_cons.mp hrow with he | hrest
    · subst he
      simp only [foldMaxRows]
      exact le_trans (le_foldMax_of_mem recP b row m p hp hem) (le_foldMaxRows_acc recP b rows _)
    · simp only [foldMaxRows]
      exact ih _ row p hrest hp hem

theorem foldMax_witness (b : Board) (β : EInt) :
    ∀ (cells : List Pos) (m : EInt), β ≤ foldMax recP b cells m →
      β ≤ m ∨ ∃ p ∈ cells, b.get p = none ∧ β ≤ recP (setCell b p (some Player.O)) := by
  intro cells
  induction cells with
  | nil => intro m h; exact Or.inl h
  | cons p rest ih =>
    intro m h
    simp only [foldMax] at h
    by_cases hp : b.get p = none
    · rw [if_pos hp] at h
      rcases ih _ h with hm | ⟨q, hq, hqe, hqs⟩
      · rcases le_sup_iff.mp hm with hm1 | hm2
        · exact Or.inl hm1
        · exact Or.inr ⟨p, List.mem_cons_self p rest, hp, hm2⟩
      · exact Or.inr ⟨q, List.mem_cons_of_mem p hq, hqe, hqs⟩
    · rw [if_neg hp] at h
      rcases ih _ h with hm | ⟨q, hq, hqe, hqs⟩
      · exact Or.inl hm
      · exact Or.inr ⟨q, List.mem_cons_of_mem p hq, hqe, hqs⟩

theorem foldMaxRows_witness (b : Board) (β : EInt) :
    ∀ (rows : List (List Pos)) (m : EInt), β ≤ foldMaxRows recP b rows m →
      β ≤ m ∨ ∃ row ∈ rows, ∃ p ∈ row, b.get p = none ∧
        β ≤ recP (setCell b p (some Player.O)) := by
  intro rows
  induction rows with
  | nil => intro m h; exact Or.inl h
  | cons row rows ih =>
    intro m h
    simp only [foldMaxRows] at h
    rcases ih _ h with hm | ⟨r2, hr2, q, hq, hqe, hqs⟩
    · rcases foldMax_witness recP b β row m hm with hm1 | ⟨q, hq, hqe, hqs⟩
      · exact Or.inl hm1
      · exact Or.inr ⟨row, List.mem_cons_self row rows, q, hq, hqe, hqs⟩
    · exact Or.inr ⟨r2, List.mem_cons_of_mem row hr2, q, hq, hqe, hqs⟩

end FoldBounds

section FoldBoundsMin

variable (recP : Board → EInt)

theorem foldMin_acc_le (b : Board) :
    ∀ (cells : List Pos) (m m2 : EInt), m ≤ m2 → foldMin recP b cells m ≤ foldMin recP b cells m2 := by
  intro cells
  induction cells with
  | nil => intro m m2 h; exact h
  | cons p rest ih =>
    intro m m2 h
    simp only [foldMin]
    by_cases hp : b.get p = none
    · simp only [hp, if_true]
      exact ih _ _ (inf_le_inf_right _ h)
    · simp only [hp, if_false]
      exact ih _ _ h

theorem foldMin_acc_ge (b : Board) :
    ∀ (cells : List Pos) (m : EInt), foldMin recP b cells m ≤ m := by
  intro cells
  induction cells with
  | nil => intro m; exact le_refl m
  | cons p rest ih =>
    intro m
    simp only [foldMin]
    by_cases hp : b.get p = none
    · simp only [hp, if_true]
      exact le_trans (ih _) inf_le_left
    · simp only [hp, if_false]
      exact ih m

theorem foldMin_le_of_mem (b : Board) :
    ∀ (cells : List Pos) (m : EInt) (p : Pos), p ∈ cells → b.get p = none →
      foldMin recP b cells m ≤ recP (setCell b p (some Player.X)) := by
  intro cells
  induction cells with
  | nil => intro m p hp; exact absurd hp (List.not_mem_nil p)
  | cons q rest ih =>
    intro m p hp hem
    rcases List.mem_cons.mp hp with he | hrest
    · subst he
      simp only [foldMin, hem, if_true]
      exact le_trans (foldMin_acc_ge recP b rest _) inf_le_right
    · simp only [foldMin]
      by_cases hq : b.get q = none
      · simp only [hq, if_true]
        exact ih _ p hrest hem
      · simp only [hq, if_false]
        exact ih m p hrest hem

theorem foldMinRows_acc_ge (b : Board) :
    ∀ (rows : List (List Pos)) (m : EInt), foldMinRows recP b rows m ≤ m := by
  intro rows
  induction rows with
  | nil => intro m; exact le_refl m
  | cons row rows ih =>
    intro m
    simp only [foldMinRows]
    exact le_trans (ih _) (foldMin_acc_ge recP b row m)

theorem foldMinRows_acc_le (b : Board) :
    ∀ (rows : List (List Pos)) (m m2 : EInt), m ≤ m2 →
      foldMinRows recP b rows m ≤ foldMinRows recP b rows m2 := by
  intro rows
  induction rows with
  | nil => intro m m2 h; exact h
  | cons row rows ih =>
    intro m m2 h
    simp only [foldMinRows]
    exact ih _ _ (foldMin_acc_le recP b row m m2 h)

theorem foldMinRows_le_of_mem (b : Board) :
    ∀ (rows : List (List Pos)) (m : EInt) (row : List Pos) (p : Pos),
      row ∈ rows → p ∈ row → b.get p = none →
      foldMinRows recP b rows m ≤ recP (setCell b p (some Player.X)) := by
  intro rows
  induction rows with
  | nil => intro m row p hrow; exact absurd hrow (List.not_mem_nil row)
  | cons r rows ih =>
    intro m row p hrow hp hem
    rcases List.mem_cons.mp hrow with he | hrest
    · subst he
      simp only [foldMinRows]
      exact le_trans (foldMinRows_acc_ge recP b rows _) (foldMin_le_of_mem recP b row m p hp hem)
    · simp only [foldMinRows]
      exact ih _ row p hrest hp hem

theorem foldMin_witness (b : Board) (a : EInt) :
    ∀ (cells : List Pos) (m : EInt), foldMin recP b cells m ≤ a →
      m ≤ a ∨ ∃ p ∈ cells, b.get p = none ∧ recP (setCell b p (some Player.X)) ≤ a := by
  intro cells
  induction cells with
  | nil => intro m h; exact Or.inl h
  | cons p rest ih =>
    intro m h
    simp only [foldMin] at h
    by_cases hp : b.get p = none
    · rw [if_pos hp] at h
      rcases ih _ h with hm | ⟨q, hq, hqe, hqs⟩
      · rcases inf_le_iff.mp hm with hm1 | hm2
        · exact Or.inl hm1
        · exact Or.inr ⟨p, List.mem_cons_self p rest, hp, hm2⟩
      · exact Or.inr ⟨q, List.mem_cons_of_mem p hq, hqe, hqs⟩
    · rw [if_neg hp] at h
      rcases ih _ h with hm | ⟨q, hq, hqe, hqs⟩
      · exact Or.inl hm
      · exact Or.inr ⟨q, List.mem_cons_of_mem p hq, hqe, hqs⟩

theorem foldMinRows_witness (b : Board) (a : EInt) :
    ∀ (rows : List (List Pos)) (m : EInt), foldMinRows recP b rows m ≤ a →
      m ≤ a ∨ ∃ row ∈ rows, ∃ p ∈ row, b.get p = none ∧
        recP (setCell b p (some Player.X)) ≤ a := by
  intro rows
  induction rows with
  | nil => intro m h; exact Or.inl h
  | cons row rows ih =>
    intro m h
    simp only [foldMinRows] at h
    rcases ih _ h with hm | ⟨r2, hr2, q, hq, hqe, hqs⟩
    · rcases foldMin_witness recP b a row m hm with hm1 | ⟨q, hq, hqe, hqs⟩
      · exact Or.inl hm1
      · exact Or.inr ⟨row, List.mem_cons_self row rows, q, hq, hqe, hqs⟩
    · exact Or.inr ⟨r2, List.mem_cons_of_mem row hr2, q, hq, hqe, hqs⟩

end FoldBoundsMin

/-! ### The maximizing node -/

theorem maxRow_inv (rec : Board → EInt → EInt → EInt × Board) (β a : EInt) :
    ∀ (cells : List Pos) (b : Board) (m α : EInt), α = a ⊔ m →
      m ≤ (maxRow rec β cells b m α).1 ∧
      (maxRow rec β cells b m α).2.1 = a ⊔ (maxRow rec β cells b m α).1 := by
  intro cells
  induction cells with
  | nil => intro b m α hα; exact ⟨le_refl m, hα⟩
  | cons p rest ih =>
    intro b m α hα
    simp only [maxRow]
    by_cases hp : b.get p = none
    · simp only [hp, if_true, eq_self_iff_true]
      by_cases hcut : β ≤ α ⊔ (rec (setCell b p (some Player.O)) α β).1
      · simp only [hcut, if_true]
        exact ⟨le_sup_left, by rw [hα, sup_assoc]⟩
      · simp only [hcut, if_false]
        have h2 := ih (setCell (rec (setCell b p (some Player.O)) α β).2 p none)
          (m ⊔ (rec (setCell b p (some Player.O)) α β).1)
          (α ⊔ (rec (setCell b p (some Player.O)) α β).1) (by rw [hα, sup_assoc])
        exact ⟨le_trans le_sup_left h2.1, h2.2⟩
    · simp only [hp, if_false]
      exact ih b m α hα

theorem maxRows_inv (rec : Board → EInt → EInt → EInt × Board) (β a : EInt) :
    ∀ (rows : List (List Pos)) (b : Board) (m α : EInt), α = a ⊔ m →
      m ≤ (maxRows rec β rows b m α).1 ∧
      (maxRows rec β rows b m α).2.1 = a ⊔ (maxRows rec β rows b m α).1 := by
  intro rows
  induction rows with
  | nil => intro b m α hα; exact ⟨le_refl m, hα⟩
  | cons row rows ih =>
    intro b m α hα
    simp only [maxRows]
    have h1 := maxRow_inv rec β a row b m α hα
    have h2 := ih (maxRow rec β row b m α).2.2 (maxRow rec β row b m α).1
      (maxRow rec β row b m α).2.1 h1.2
    exact ⟨le_trans h1.1 h2.1, h2.2⟩

theorem maxRow_L (rec : Board → EInt → EInt → EInt × Board) (recP : Board → EInt)
    (β a : EInt) (ha : a < β)
    (hrecb : ∀ b α2 β2, (rec b α2 β2).2 = b)
    (hLc : ∀ b2 α2 β2, α2 < β2 → recP b2 ≤ α2 → (rec b2 α2 β2).1 ≤ α2) :
    ∀ (cells : List Pos) (b : Board) (m : EInt), m ≤ a →
      (∀ p ∈ cells, b.get p = none → recP (setCell b p (some Player.O)) ≤ a) →
      (maxRow rec β cells b m a).1 ≤ a ∧ (maxRow rec β cells b m a).2.1 = a := by
  intro cells
  induction cells with
  | nil => intro b m hm _; exact ⟨hm, rfl⟩
  | cons p rest ih =>
    intro b m hm hsc
    simp only [maxRow]
    by_cases hp : b.get p = none
    · simp only [hp, if_true, eq_self_iff_true]
      have he : (rec (setCell b p (some Player.O)) a β).1 ≤ a :=
        hLc _ a β ha (hsc p (List.mem_cons_self p rest) hp)
      have hsup : a ⊔ (rec (setCell b p (some Player.O)) a β).1 = a := sup_eq_left.mpr he
      have hcut : ¬ β ≤ a ⊔ (rec (setCell b p (some Player.O)) a β).1 := by
        rw [hsup]; exact not_le.mpr ha
      simp only [hcut, if_false]
      rw [hrecb, setCell_restore b p _ hp, hsup]
      exact ih b (m ⊔ (rec (setCell b p (some Player.O)) a β).1) (sup_le hm he)
        (fun q hq => hsc q (List.mem_cons_of_mem p hq))
    · simp only [hp, if_false]
      exact ih b m hm (fun q hq => hsc q (List.mem_cons_of_mem p hq))

theorem maxRows_L (rec : Board → EInt → EInt → EInt × Board) (recP : Board → EInt)
    (β a : EInt) (ha : a < β)
    (hrecb : ∀ b α2 β2, (rec b α2 β2).2 = b)
    (hLc : ∀ b2 α2 β2, α2 < β2 → recP b2 ≤ α2 → (rec b2 α2 β2).1 ≤ α2) :
    ∀ (rows : List (List Pos)) (b : Board) (m : EInt), m ≤ a →
      (∀ row ∈ rows, ∀ p ∈ row, b.get p = none → recP (setCell b p (some Player.O)) ≤ a) →
      (maxRows rec β rows b m a).1 ≤ a ∧ (maxRows rec β rows b m a).2.1 = a := by
  intro rows
  induction rows with
  | nil => intro b m hm _; exact ⟨hm, rfl⟩
  | cons row rows ih =>
    intro b m hm hsc
    simp only [maxRows]
    have h1 := maxRow_L rec recP β a ha hrecb hLc row b m hm
      (fun p hp => hsc row (List.mem_cons_self row rows) p hp)
    rw [maxRow_board rec β hrecb row b m a, h1.2]
    exact ih b (maxRow rec β row b m a).1 h1.1
      (fun r2 hr2 p hp => hsc r2 (List.mem_cons_of_mem row hr2) p hp)

theorem maxRow_H (rec : Board → EInt → EInt → EInt × Board) (recP : Board → EInt)
    (β a : EInt) (ha : a < β)
    (hrecb : ∀ b α2 β2, (rec b α2 β2).2 = b)
    (hHc : ∀ b2 α2 β2, α2 < β2 → β2 ≤ recP b2 → β2 ≤ (rec b2 α2 β2).1) :
    ∀ (cells : List Pos) (b : Board) (m α : EInt), α = a ⊔ m →
      (β ≤ m ∨ ∃ p ∈ cells, b.get p = none ∧ β ≤ recP (setCell b p (some Player.O))) →
      β ≤ (maxRow rec β cells b m α).1 := by
  intro cells
  induction cells with
  | nil =>
    intro b m α hα hyp
    rcases hyp with hm | ⟨p, hp, _⟩
    · exact hm
    · exact absurd hp (List.not_mem_nil p)
  | cons q rest ih =>
    intro b m α hα hyp
    rcases hyp with hm | ⟨p, hp, hpe, hps⟩
    · exact le_trans hm (maxRow_inv rec β a (q :: rest) b m α hα).1
    · by_cases hβm : β ≤ m
      · exact le_trans hβm (maxRow_inv rec β a (q :: rest) b m α hα).1
      · have hαβ : α < β := by
          rw [hα]; exact sup_lt_iff.mpr ⟨ha, not_le.mp hβm⟩
        simp only [maxRow]
        by_cases hq : b.get q = none
        · simp only [hq, if_true, eq_self_iff_true]
          by_cases hcut : β ≤ α ⊔ (rec (setCell b q (some Player.O)) α β).1
          · simp only [hcut, if_true]
            have he : β ≤ (rec (setCell b q (some Player.O)) α β).1 := by
              rcases le_sup_iff.mp hcut with h1 | h2
              · rw [hα] at h1
                rcases le_sup_iff.mp h1 with h3 | h4
                · exact absurd h3 (not_le.mpr ha)
                · exact absurd h4 hβm
              · exact h2
            exact le_trans he le_sup_right
          · simp only [hcut, if_false]
            rcases List.mem_cons.mp hp with he | hrest2
            · subst he
              have he2 : β ≤ (rec (setCell b p (some Player.O)) α β).1 := hHc _ α β hαβ hps
              exact absurd (le_trans he2 le_sup_right) hcut
            · rw [hrecb, setCell_restore b q _ hq]
              exact ih b _ _ (by rw [hα, sup_assoc]) (Or.inr ⟨p, hrest2, hpe, hps⟩)
        · simp only [hq, if_false]
          rcases List.mem_cons.mp hp with he | hrest2
          · subst he
            exact absurd hpe hq
          · exact ih b m α hα (Or.inr ⟨p, hrest2, hpe, hps⟩)

theorem maxRows_H (rec : Board → EInt → EInt → EInt × Board) (recP : Board → EInt)
    (β a : EInt) (ha : a < β)
    (hrecb : ∀ b α2 β2, (rec b α2 β2).2 = b)
    (hHc : ∀ b2 α2 β2, α2 < β2 → β2 ≤ recP b2 → β2 ≤ (rec b2 α2 β2).1) :
    ∀ (rows : List (List Pos)) (b : Board) (m α : EInt), α = a ⊔ m →
      (β ≤ m ∨ ∃ row ∈ rows, ∃ p ∈ row, b.get p = none ∧
        β ≤ recP (setCell b p (some Player.O))) →
      β ≤ (maxRows rec β rows b m α).1 := by
  intro rows
  induction rows with
  | nil =>
    intro b m α hα hyp
    rcases hyp with hm | ⟨row, hrow, _⟩
    · exact hm
    · exact absurd hrow (List.not_mem_nil row)
  | cons row rows ih =>
    intro b m α hα hyp
    simp only [maxRows]
    have hinv := maxRow_inv rec β a row b m α hα
    have hb2 := maxRow_board rec β hrecb row b m α
    rcases hyp with hm | ⟨r2, hr2, p, hp, hpe, hps⟩
    · have h1 : β ≤ (maxRow rec β row b m α).1 := le_trans hm hinv.1
      exact le_trans h1 (maxRows_inv rec β a rows _ _ _ hinv.2).1
    · rcases List.mem_cons.mp hr2 with he | hrest2
      · subst he
        have h1 := maxRow_H rec recP β a ha hrecb hHc r2 b m α hα
          (Or.inr ⟨p, hp, hpe, hps⟩)
        exact le_trans h1 (maxRows_inv rec β a rows _ _ _ hinv.2).1
      · rw [hb2]
        exact ih b _ _ hinv.2 (Or.inr ⟨r2, hrest2, p, hp, hpe, hps⟩)

theorem maxRow_E (rec : Board → EInt → EInt → EInt × Board) (recP : Board → EInt)
    (β a V : EInt) (haV : a < V) (hVβ : V < β)
    (hrecb : ∀ b α2 β2, (rec b α2 β2).2 = b)
    (hEc : ∀ b2 α2 β2, α2 < β2 → α2 < recP b2 → recP b2 < β2 → (rec b2 α2 β2).1 = recP b2)
    (hLc : ∀ b2 α2 β2, α2 < β2 → recP b2 ≤ α2 → (rec b2 α2 β2).1 ≤ α2) :
    ∀ (cells : List Pos) (b : Board) (m mp : EInt), m ≤ V → a ⊔ mp ≤ a ⊔ m →
      (∀ p ∈ cells, b.get p = none → recP (setCell b p (some Player.O)) ≤ V) →
      (maxRow rec β cells b m (a ⊔ m)).1 ≤ V ∧
      a ⊔ foldMax recP b cells mp ≤ a ⊔ (maxRow rec β cells b m (a ⊔ m)).1 := by
  intro cells
  induction cells with
  | nil => intro b m mp hm hmp _; exact ⟨hm, by simpa [foldMax] using hmp⟩
  | cons p rest ih =>
    intro b m mp hm hmp hsc
    have ham : a ⊔ m ≤ V := sup_le (le_of_lt haV) hm
    have hαβ : a ⊔ m < β := lt_of_le_of_lt ham hVβ
    simp only [maxRow, foldMax]
    by_cases hp : b.get p = none
    · simp only [hp, if_true, eq_self_iff_true]
      have hsV : recP (setCell b p (some Player.O)) ≤ V :=
        hsc p (List.mem_cons_self p rest) hp
      by_cases hcase : a ⊔ m < recP (setCell b p (some Player.O))
      · have heq := hEc _ (a ⊔ m) β hαβ hcase (lt_of_le_of_lt hsV hVβ)
        rw [heq]
        have hm2 : m ⊔ recP (setCell b p (some Player.O)) ≤ V := sup_le hm hsV
        have hcut : ¬ β ≤ (a ⊔ m) ⊔ recP (setCell b p (some Player.O)) := by
          apply not_le.mpr
          exact lt_of_le_of_lt (sup_le ham hsV) hVβ
        simp only [hcut, if_false]
        rw [hrecb, setCell_restore b p _ hp, sup_assoc]
        have hih := ih b (m ⊔ recP (setCell b p (some Player.O)))
          (mp ⊔ recP (setCell b p (some Player.O))) hm2
          (by
            rw [← sup_assoc, ← sup_assoc]
            exact sup_le_sup_right hmp _)
          (fun q hq => hsc q (List.mem_cons_of_mem p hq))
        exact hih
      · have he : (rec (setCell b p (some Player.O)) (a ⊔ m) β).1 ≤ a ⊔ m :=
          hLc _ (a ⊔ m) β hαβ (not_lt.mp hcase)
        have hm2 : m ⊔ (rec (setCell b p (some Player.O)) (a ⊔ m) β).1 ≤ V :=
          sup_le hm (le_trans he ham)
        have hcut : ¬ β ≤ (a ⊔ m) ⊔ (rec (setCell b p (some Player.O)) (a ⊔ m) β).1 := by
          apply not_le.mpr
          exact lt_of_le_of_lt (sup_le ham (le_trans he ham)) hVβ
        simp only [hcut, if_false]
        rw [hrecb, setCell_restore b p _ hp, sup_assoc]
        have hih := ih b (m ⊔ (rec (setCell b p (some Player.O)) (a ⊔ m) β).1)
          (mp ⊔ recP (setCell b p (some Player.O))) hm2
          (by
            rw [← sup_assoc, ← sup_assoc]
            refine sup_le (le_trans hmp le_sup_left) ?_
            exact le_trans (not_lt.mp hcase) le_sup_left)
          (fun q hq => hsc q (List.mem_cons_of_mem p hq))
        exact hih
    · simp only [hp, if_false]
      exact ih b m mp hm hmp (fun q hq => hsc q (List.mem_cons_of_mem p hq))

theorem maxRows_E (rec : Board → EInt → EInt → EInt × Board) (recP : Board → EInt)
    (β a V : EInt) (haV : a < V) (hVβ : V < β)
    (hrecb : ∀ b α2 β2, (rec b α2 β2).2 = b)
    (hEc : ∀ b2 α2 β2, α2 < β2 → α2 < recP b2 → recP b2 < β2 → (rec b2 α2 β2).1 = recP b2)
    (hLc : ∀ b2 α2 β2, α2 < β2 → recP b2 ≤ α2 → (rec b2 α2 β2).1 ≤ α2) :
    ∀ (rows : List (List Pos)) (b : Board) (m mp : EInt), m ≤ V → a ⊔ mp ≤ a ⊔ m →
      (∀ row ∈ rows, ∀ p ∈ row, b.get p = none →
        recP (setCell b p (some Player.O)) ≤ V) →
      (maxRows rec β rows b m (a ⊔ m)).1 ≤ V ∧
      a ⊔ foldMaxRows recP b rows mp ≤ a ⊔ (maxRows rec β rows b m (a ⊔ m)).1 := by
  intro rows
  induction rows with
  | nil => intro b m mp hm hmp _; exact ⟨hm, by simpa [foldMaxRows] using hmp⟩
  | cons row rows ih =>
    intro b m mp hm hmp hsc
    simp only [maxRows, foldMaxRows]
    have hrowE := maxRow_E rec recP β a V haV hVβ hrecb hEc hLc row b m mp hm hmp
      (fun p hp => hsc row (List.mem_cons_self row rows) p hp)
    have hinv := maxRow_inv rec β a row b m (a ⊔ m) rfl
    have hb2 := maxRow_board rec β hrecb row b m (a ⊔ m)
    rw [hb2, hinv.2]
    exact ih b (maxRow rec β row b m (a ⊔ m)).1 (foldMax recP b row mp) hrowE.1 hrowE.2
      (fun r2 hr2 p hp => hsc r2 (List.mem_cons_of_mem row hr2) p hp)

/-! ### The minimizing node (dual) -/

theorem minRow_inv (rec : Board → EInt → EInt → EInt × Board) (a B : EInt) :
    ∀ (cells : List Pos) (b : Board) (m β : EInt), β = B ⊓ m →
      (minRow rec a cells b m β).1 ≤ m ∧
      (minRow rec a cells b m β).2.1 = B ⊓ (minRow rec a cells b m β).1 := by
  intro cells
  induction cells with
  | nil => intro b m β hβ; exact ⟨le_refl m, hβ⟩
  | cons p rest ih =>
    intro b m β hβ
    simp only [minRow]
    by_cases hp : b.get p = none
    · simp only [hp, if_true, eq_self_iff_true]
      by_cases hcut : β ⊓ (rec (setCell b p (some Player.X)) a β).1 ≤ a
      · simp only [hcut, if_true]
        exact ⟨inf_le_left, by rw [hβ, inf_assoc]⟩
      · simp only [hcut, if_false]
        have h2 := ih (setCell (rec (setCell b p (some Player.X)) a β).2 p none)
          (m ⊓ (rec (setCell b p (some Player.X)) a β).1)
          (β ⊓ (rec (setCell b p (some Player.X)) a β).1) (by rw [hβ, inf_assoc])
        exact ⟨le_trans h2.1 inf_le_left, h2.2⟩
    · simp only [hp, if_false]
      exact ih b m β hβ

theorem minRows_inv (rec : Board → EInt → EInt → EInt × Board) (a B : EInt) :
    ∀ (rows : List (List Pos)) (b : Board) (m β : EInt), β = B ⊓ m →
      (minRows rec a rows b m β).1 ≤ m ∧
      (minRows rec a rows b m β).2.1 = B ⊓ (minRows rec a rows b m β).1 := by
  intro rows
  induction rows with
  | nil => intro b m β hβ; exact ⟨le_refl m, hβ⟩
  | cons row rows ih =>
    intro b m β hβ
    simp only [minRows]
    have h1 := minRow_inv rec a B row b m β hβ
    have h2 := ih (minRow rec a row b m β).2.2 (minRow rec a row b m β).1
      (minRow rec a row b m β).2.1 h1.2
    exact ⟨le_trans h2.1 h1.1, h2.2⟩

theorem minRow_H (rec : Board → EInt → EInt → EInt × Board) (recP : Board → EInt)
    (a B : EInt) (ha : a < B)
    (hrecb : ∀ b α2 β2, (rec b α2 β2).2 = b)
    (hHc : ∀ b2 α2 β2, α2 < β2 → β2 ≤ recP b2 → β2 ≤ (rec b2 α2 β2).1) :
    ∀ (cells : List Pos) (b : Board) (m : EInt), B ≤ m →
      (∀ p ∈ cells, b.get p = none → B ≤ recP (setCell b p (some Player.X))) →
      B ≤ (minRow rec a cells b m B).1 ∧ (minRow rec a cells b m B).2.1 = B := by
  intro cells
  induction cells with
  | nil => intro b m hm _; exact ⟨hm, rfl⟩
  | cons p rest ih =>
    intro b m hm hsc
    simp only [minRow]
    by_cases hp : b.get p = none
    · simp only [hp, if_true, eq_self_iff_true]
      have he : B ≤ (rec (setCell b p (some Player.X)) a B).1 :=
        hHc _ a B ha (hsc p (List.mem_cons_self p rest) hp)
      have hinf : B ⊓ (rec (setCell b p (some Player.X)) a B).1 = B := inf_eq_left.mpr he
      have hcut : ¬ B ⊓ (rec (setCell b p (some Player.X)) a B).1 ≤ a := by
        rw [hinf]; exact not_le.mpr ha
      simp only [hcut, if_false]
      rw [hrecb, setCell_restore b p _ hp, hinf]
      exact ih b (m ⊓ (rec (setCell b p (some Player.X)) a B).1) (le_inf hm he)
        (fun q hq => hsc q (List.mem_cons_of_mem p hq))
    · simp only [hp, if_false]
      exact ih b m hm (fun q hq => hsc q (List.mem_cons_of_mem p hq))

theorem minRows_H (rec : Board → EInt → EInt → EInt × Board) (recP : Board → EInt)
    (a B : EInt) (ha : a < B)
    (hrecb : ∀ b α2 β2, (rec b α2 β2).2 = b)
    (hHc : ∀ b2 α2 β2, α2 < β2 → β2 ≤ recP b2 → β2 ≤ (rec b2 α2 β2).1) :
    ∀ (rows : List (List Pos)) (b : Board) (m : EInt), B ≤ m →
      (∀ row ∈ rows, ∀ p ∈ row, b.get p = none → B ≤ recP (setCell b p (some Player.X))) →
      B ≤ (minRows rec a rows b m B).1 ∧ (minRows rec a rows b m B).2.1 = B := by
  intro rows
  induction rows with
  | nil => intro b m hm _; exact ⟨hm, rfl⟩
  | cons row rows ih =>
    intro b m hm hsc
    simp only [minRows]
    have h1 := minRow_H rec recP a B ha hrecb hHc row b m hm
      (fun p hp => hsc row (List.mem_cons_self row rows) p hp)
    rw [minRow_board rec a hrecb row b m B, h1.2]
    exact ih b (minRow rec a row b m B).1 h1.1
      (fun r2 hr2 p hp => hsc r2 (List.mem_cons_of_mem row hr2) p hp)

theorem minRow_L (rec : Board → EInt → EInt → EInt × Board) (recP : Board → EInt)
    (a B : EInt) (ha : a < B)
    (hrecb : ∀ b α2 β2, (rec b α2 β2).2 = b)
    (hLc : ∀ b2 α2 β2, α2 < β2 → recP b2 ≤ α2 → (rec b2 α2 β2).1 ≤ α2) :
    ∀ (cells : List Pos) (b : Board) (m β : EInt), β = B ⊓ m →
      (m ≤ a ∨ ∃ p ∈ cells, b.get p = none ∧ recP (setCell b p (some Player.X)) ≤ a) →
      (minRow rec a cells b m β).1 ≤ a := by
  intro cells
  induction cells with
  | nil =>
    intro b m β hβ hyp
    rcases hyp with hm | ⟨p, hp, _⟩
    · exact hm
    · exact absurd hp (List.not_mem_nil p)
  | cons q rest ih =>
    intro b m β hβ hyp
    rcases hyp with hm | ⟨p, hp, hpe, hps⟩
    · exact le_trans (minRow_inv rec a B (q :: rest) b m β hβ).1 hm
    · by_cases hma : m ≤ a
      · exact le_trans (minRow_inv rec a B (q :: rest) b m β hβ).1 hma
      · have hαβ : a < β := by
          rw [hβ]; exact lt_inf_iff.mpr ⟨ha, not_le.mp hma⟩
        simp only [minRow]
        by_cases hq : b.get q = none
        · simp only [hq, if_true, eq_self_iff_true]
          by_cases hcut : β ⊓ (rec (setCell b q (some Player.X)) a β).1 ≤ a
          · simp only [hcut, if_true]
            have he : (rec (setCell b q (some Player.X)) a β).1 ≤ a := by
              rcases inf_le_iff.mp hcut with h1 | h2
              · rw [hβ] at h1
                rcases inf_le_iff.mp h1 with h3 | h4
                · exact absurd h3 (not_le.mpr ha)
                · exact absurd h4 hma
              · exact h2
            exact le_trans inf_le_right he
          · simp only [hcut, if_false]
            rcases List.mem_cons.mp hp with he | hrest2
            · subst he
              have he2 : (rec (setCell b p (some Player.X)) a β).1 ≤ a := hLc _ a β hαβ hps
              exact absurd (le_trans inf_le_right he2) hcut
            · rw [hrecb, setCell_restore b q _ hq]
              exact ih b _ _ (by rw [hβ, inf_assoc]) (Or.inr ⟨p, hrest2, hpe, hps⟩)
        · simp only [hq, if_false]
          rcases List.mem_cons.mp hp with he | hrest2
          · subst he
            exact absurd hpe hq
          · exact ih b m β hβ (Or.inr ⟨p, hrest2, hpe, hps⟩)

theorem minRows_L (rec : Board → EInt → EInt → EInt × Board) (recP : Board → EInt)
    (a B : EInt) (ha : a < B)
    (hrecb : ∀ b α2 β2, (rec b α2 β2).2 = b)
    (hLc : ∀ b2 α2 β2, α2 < β2 → recP b2 ≤ α2 → (rec b2 α2 β2).1 ≤ α2) :
    ∀ (rows : List (List Pos)) (b : Board) (m β : EInt), β = B ⊓ m →
      (m ≤ a ∨ ∃ row ∈ rows, ∃ p ∈ row, b.get p = none ∧
        recP (setCell b p (some Player.X)) ≤ a) →
      (minRows rec a rows b m β).1 ≤ a := by
  intro rows
  induction rows with
  | nil =>
    intro b m β hβ hyp
    rcases hyp with hm | ⟨row, hrow, _⟩
    · exact hm
    · exact absurd hrow (List.not_mem_nil row)
  | cons row rows ih =>
    intro b m β hβ hyp
    simp only [minRows]
    have hinv := minRow_inv rec a B row b m β hβ
    have hb2 := minRow_board rec a hrecb row b m β
    rcases hyp with hm | ⟨r2, hr2, p, hp, hpe, hps⟩
    · have h1 : (minRow rec a row b m β).1 ≤ a := le_trans hinv.1 hm
      exact le_trans (minRows_inv rec a B rows _ _ _ hinv.2).1 h1
    · rcases List.mem_cons.mp hr2 with he | hrest2
      · subst he
        have h1 := minRow_L rec recP a B ha hrecb hLc r2 b m β hβ
          (Or.inr ⟨p, hp, hpe, hps⟩)
        exact le_trans (minRows_inv rec a B rows _ _ _ hinv.2).1 h1
      · rw [hb2]
        exact ih b _ _ hinv.2 (Or.inr ⟨r2, hrest2, p, hp, hpe, hps⟩)

theorem minRow_E (rec : Board → EInt → EInt → EInt × Board) (recP : Board → EInt)
    (a B V : EInt) (haV : a < V) (hVB : V < B)
    (hrecb : ∀ b α2 β2, (rec b α2 β2).2 = b)
    (hEc : ∀ b2 α2 β2, α2 < β2 → α2 < recP b2 → recP b2 < β2 → (rec b2 α2 β2).1 = recP b2)
    (hHc : ∀ b2 α2 β2, α2 < β2 → β2 ≤ recP b2 → β2 ≤ (rec b2 α2 β2).1) :
    ∀ (cells : List Pos) (b : Board) (m mp : EInt), V ≤ m → B ⊓ m ≤ B ⊓ mp →
      (∀ p ∈ cells, b.get p = none → V ≤ recP (setCell b p (some Player.X))) →
      V ≤ (minRow rec a cells b m (B ⊓ m)).1 ∧
      B ⊓ (minRow rec a cells b m (B ⊓ m)).1 ≤ B ⊓ foldMin recP b cells mp := by
  intro cells
  induction cells with
  | nil => intro b m mp hm hmp _; exact ⟨hm, by simpa [foldMin] using hmp⟩
  | cons p rest ih =>
    intro b m mp hm hmp hsc
    have ham : V ≤ B ⊓ m := le_inf (le_of_lt hVB) hm
    have hαβ : a < B ⊓ m := lt_of_lt_of_le haV ham
    simp only [minRow, foldMin]
    by_cases hp : b.get p = none
    · simp only [hp, if_true, eq_self_iff_true]
      have hsV : V ≤ recP (setCell b p (some Player.X)) :=
        hsc p (List.mem_cons_self p rest) hp
      by_cases hcase : recP (setCell b p (some Player.X)) < B ⊓ m
      · have heq := hEc _ a (B ⊓ m) hαβ (lt_of_lt_of_le haV hsV) hcase
        rw [heq]
        have hm2 : V ≤ m ⊓ recP (setCell b p (some Player.X)) := le_inf hm hsV
        have hcut : ¬ (B ⊓ m) ⊓ recP (setCell b p (some Player.X)) ≤ a := by
          apply not_le.mpr
          exact lt_of_lt_of_le haV (le_inf ham hsV)
        simp only [hcut, if_false]
        rw [hrecb, setCell_restore b p _ hp, inf_assoc]
        have hih := ih b (m ⊓ recP (setCell b p (some Player.X)))
          (mp ⊓ recP (setCell b p (some Player.X))) hm2
          (by
            rw [← inf_assoc, ← inf_assoc]
            exact inf_le_inf_right _ hmp)
          (fun q hq => hsc q (List.mem_cons_of_mem p hq))
        exact hih
      · have he : B ⊓ m ≤ (rec (setCell b p (some Player.X)) a (B ⊓ m)).1 :=
          hHc _ a (B ⊓ m) hαβ (not_lt.mp hcase)
        have hm2 : V ≤ m ⊓ (rec (setCell b p (some Player.X)) a (B ⊓ m)).1 :=
          le_inf hm (le_trans ham he)
        have hcut : ¬ (B ⊓ m) ⊓ (rec (setCell b p (some Player.X)) a (B ⊓ m)).1 ≤ a := by
          apply not_le.mpr
          exact lt_of_lt_of_le haV (le_inf ham (le_trans ham he))
        simp only [hcut, if_false]
        rw [hrecb, setCell_restore b p _ hp, inf_assoc]
        have hih := ih b (m ⊓ (rec (setCell b p (some Player.X)) a (B ⊓ m)).1)
          (mp ⊓ recP (setCell b p (some Player.X))) hm2
          (by
            rw [← inf_assoc, ← inf_assoc]
            refine le_inf (le_trans inf_le_left hmp) ?_
            exact le_trans inf_le_left (not_lt.mp hcase))
          (fun q hq => hsc q (List.mem_cons_of_mem p hq))
        exact hih
    · simp only [hp, if_false]
      exact ih b m mp hm hmp (fun q hq => hsc q (List.mem_cons_of_mem p hq))

theorem minRows_E (rec : Board → EInt → EInt → EInt × Board) (recP : Board → EInt)
    (a B V : EInt) (haV : a < V) (hVB : V < B)
    (hrecb : ∀ b α2 β2, (rec b α2 β2).2 = b)
    (hEc : ∀ b2 α2 β2, α2 < β2 → α2 < recP b2 → recP b2 < β2 → (rec b2 α2 β2).1 = recP b2)
    (hHc : ∀ b2 α2 β2, α2 < β2 → β2 ≤ recP b2 → β2 ≤ (rec b2 α2 β2).1) :
    ∀ (rows : List (List Pos)) (b : Board) (m mp : EInt), V ≤ m → B ⊓ m ≤ B ⊓ mp →
      (∀ row ∈ rows, ∀ p ∈ row, b.get p = none →
        V ≤ recP (setCell b p (some Player.X))) →
      V ≤ (minRows rec a rows b m (B ⊓ m)).1 ∧
      B ⊓ (minRows rec a rows b m (B ⊓ m)).1 ≤ B ⊓ foldMinRows recP b rows mp := by
  intro rows
  induction rows with
  | nil => intro b m mp hm hmp _; exact ⟨hm, by simpa [foldMinRows] using hmp⟩
  | cons row rows ih =>
    intro b m mp hm hmp hsc
    simp only [minRows, foldMinRows]
    have hrowE := minRow_E rec recP a B V haV hVB hrecb hEc hHc row b m mp hm hmp
      (fun p hp => hsc row (List.mem_cons_self row rows) p hp)
    have hinv := minRow_inv rec a B row b m (B ⊓ m) rfl
    have hb2 := minRow_board rec a hrecb row b m (B ⊓ m)
    rw [hb2, hinv.2]
    exact ih b (minRow rec a row b m (B ⊓ m)).1 (foldMin recP b row mp) hrowE.1 hrowE.2
      (fun r2 hr2 p hp => hsc r2 (List.mem_cons_of_mem row hr2) p hp)

/-! ### Bounds on the plain value -/

theorem foldMax_lt_top (recP : Board → EInt) (b : Board) :
    ∀ (cells : List Pos) (m : EInt), m < ⊤ →
      (∀ p ∈ cells, b.get p = none → recP (setCell b p (some Player.O)) < ⊤) →
      foldMax recP b cells m < ⊤ := by
  intro cells
  induction cells with
  | nil => intro m hm _; exact hm
  | cons p rest ih =>
    intro m hm hc
    simp only [foldMax]
    by_cases hp : b.get p = none
    · simp only [hp, if_true, eq_self_iff_true]
      exact ih _ (sup_lt_iff.mpr ⟨hm, hc p (List.mem_cons_self p rest) hp⟩)
        (fun q hq => hc q (List.mem_cons_of_mem p hq))
    · simp only [hp, if_false]
      exact ih m hm (fun q hq => hc q (List.mem_cons_of_mem p hq))

theorem foldMaxRows_lt_top (recP : Board → EInt) (b : Board) :
    ∀ (rows : List (List Pos)) (m : EInt), m < ⊤ →
      (∀ row ∈ rows, ∀ p ∈ row, b.get p = none →
        recP (setCell b p (some Player.O)) < ⊤) →
      foldMaxRows recP b rows m < ⊤ := by
  intro rows
  induction rows with
  | nil => intro m hm _; exact hm
  | cons row rows ih =>
    intro m hm hc
    simp only [foldMaxRows]
    exact ih _ (foldMax_lt_top recP b row m hm
        (fun p hp => hc row (List.mem_cons_self row rows) p hp))
      (fun r2 hr2 p hp => hc r2 (List.mem_cons_of_mem row hr2) p hp)

theorem bot_lt_foldMin (recP : Board → EInt) (b : Board) :
    ∀ (cells : List Pos) (m : EInt), ⊥ < m →
      (∀ p ∈ cells, b.get p = none → ⊥ < recP (setCell b p (some Player.X))) →
      ⊥ < foldMin recP b cells m := by
  intro cells
  induction cells with
  | nil => intro m hm _; exact hm
  | cons p rest ih =>
    intro m hm hc
    simp only [foldMin]
    by_cases hp : b.get p = none
    · simp only [hp, if_true, eq_self_iff_true]
      exact ih _ (lt_inf_iff.mpr ⟨hm, hc p (List.mem_cons_self p rest) hp⟩)
        (fun q hq => hc q (List.mem_cons_of_mem p hq))
    · simp only [hp, if_false]
      exact ih m hm (fun q hq => hc q (List.mem_cons_of_mem p hq))

theorem bot_lt_foldMinRows (recP : Board → EInt) (b : Board) :
    ∀ (rows : List (List Pos)) (m : EInt), ⊥ < m →
      (∀ row ∈ rows, ∀ p ∈ row, b.get p = none →
        ⊥ < recP (setCell b p (some Player.X))) →
      ⊥ < foldMinRows recP b rows m := by
  intro rows
  induction rows with
  | nil => intro m hm _; exact hm
  | cons row rows ih =>
    intro m hm hc
    simp only [foldMinRows]
    exact ih _ (bot_lt_foldMin recP b row m hm
        (fun p hp => hc row (List.mem_cons_self row rows) p hp))
      (fun r2 hr2 p hp => hc r2 (List.mem_cons_of_mem row hr2) p hp)

theorem exists_empty_of_not_full (b : Board) (h : is_board_full b = false) :
    ∃ row ∈ allRows, ∃ p ∈ row, b.get p = none := by
  by_contra hcon
  push_neg at hcon
  have hfull : is_board_full b = true := by
    rw [is_board_full, List.all_eq_true]
    intro p hp
    rw [allCells] at hp
    obtain ⟨row, hrow, hpr⟩ := List.mem_flatten.mp hp
    simpa using hcon row hrow p hpr
  rw [hfull] at h
  exact absurd h (by simp)

theorem terminalScore_bounds (b : Board) (v : EInt) (h : terminalScore b = some v) :
    ⊥ < v ∧ v < ⊤ := by
  unfold terminalScore at h
  rcases hw : check_winner_on_board b with _ | p
  · rw [hw] at h
    split_ifs at h with hf
    · obtain rfl : (0 : EInt) = v := Option.some.inj h
      exact ⟨by decide, by decide⟩
  · rw [hw] at h
    cases p
    · obtain rfl : scoreLoss = v := Option.some.inj h
      exact ⟨by decide, by decide⟩
    · obtain rfl : (1 : EInt) = v := Option.some.inj h
      exact ⟨by decide, by decide⟩

theorem terminalScore_not_full (b : Board) (h : terminalScore b = none) :
    is_board_full b = false := by
  unfold terminalScore at h
  rcases hw : check_winner_on_board b with _ | p
  · rw [hw] at h
    split_ifs at h with hf
    exact Bool.eq_false_iff.mpr hf
  · rw [hw] at h
    cases p <;> exact absurd h (by simp)

theorem plain_bounds : ∀ (fuel : Nat) (b : Board) (isMax : Bool),
    ⊥ < plainMinimax fuel b isMax ∧ plainMinimax fuel b isMax < ⊤ := by
  intro fuel
  induction fuel with
  | zero =>
    intro b isMax
    simp only [plainMinimax]
    rcases ht : terminalScore b with _ | v
    · simp only [Option.getD_none]
      exact ⟨by decide, by decide⟩
    · simp only [Option.getD_some]
      exact terminalScore_bounds b v ht
  | succ fuel ih =>
    intro b isMax
    simp only [plainMinimax]
    rcases ht : terminalScore b with _ | v
    · obtain ⟨row, hrow, p, hp, hpe⟩ :=
        exists_empty_of_not_full b (terminalScore_not_full b ht)
      cases isMax
      · simp only [Bool.false_eq_true, if_false]
        constructor
        · exact bot_lt_foldMinRows _ b allRows ⊤ (by decide)
            (fun r2 hr2 q hq hqe => (ih _ true).1)
        · exact lt_of_le_of_lt
            (foldMinRows_le_of_mem _ b allRows ⊤ row p hrow hp hpe) (ih _ true).2
      · simp only [if_true]
        constructor
        · exact lt_of_lt_of_le (ih (setCell b p (some Player.O)) false).1
            (le_foldMaxRows_of_mem (fun b2 => plainMinimax fuel b2 false) b allRows ⊥
              row p hrow hp hpe)
        · exact foldMaxRows_lt_top _ b allRows ⊥ (by decide)
            (fun r2 hr2 q hq hqe => (ih _ false).2)
    · exact terminalScore_bounds b v ht

/-- The E/H/L trichotomy: on a proper window `a < β`, `minimax` is exact
when the plain value lies strictly inside the window, returns at least `β`
when the plain value is at least `β`, and returns at most `a` when the
plain value is at most `a`.  This is the invariant that survives the
source's inner-loop-only `break`. -/
theorem minimax_EHL :
    ∀ (fuel : Nat) (b : Board) (isMax : Bool) (a β : EInt), a < β →
      ((a < plainMinimax fuel b isMax → plainMinimax fuel b isMax < β →
        (minimax fuel b isMax a β).1 = plainMinimax fuel b isMax) ∧
       (β ≤ plainMinimax fuel b isMax → β ≤ (minimax fuel b isMax a β).1) ∧
       (plainMinimax fuel b isMax ≤ a → (minimax fuel b isMax a β).1 ≤ a)) := by
  intro fuel
  induction fuel with
  | zero =>
    intro b isMax a β hab
    have he : (minimax 0 b isMax a β).1 = plainMinimax 0 b isMax := rfl
    rw [he]
    exact ⟨fun _ _ => rfl, fun h => h, fun h => h⟩
  | succ fuel ih =>
    intro b isMax a β hab
    have hrbF : ∀ b2 α2 β2, (minimax fuel b2 false α2 β2).2 = b2 :=
      fun b2 α2 β2 => minimax_board fuel b2 false α2 β2
    have hrbT : ∀ b2 α2 β2, (minimax fuel b2 true α2 β2).2 = b2 :=
      fun b2 α2 β2 => minimax_board fuel b2 true α2 β2
    have hEF : ∀ b2 α2 β2, α2 < β2 → α2 < plainMinimax fuel b2 false →
        plainMinimax fuel b2 false < β2 →
        (minimax fuel b2 false α2 β2).1 = plainMinimax fuel b2 false :=
      fun b2 α2 β2 h1 h2 h3 => (ih b2 false α2 β2 h1).1 h2 h3
    have hHF : ∀ b2 α2 β2, α2 < β2 → β2 ≤ plainMinimax fuel b2 false →
        β2 ≤ (minimax fuel b2 false α2 β2).1 :=
      fun b2 α2 β2 h1 h2 => (ih b2 false α2 β2 h1).2.1 h2
    have hLF : ∀ b2 α2 β2, α2 < β2 → plainMinimax fuel b2 false ≤ α2 →
        (minimax fuel b2 false α2 β2).1 ≤ α2 :=
      fun b2 α2 β2 h1 h2 => (ih b2 false α2 β2 h1).2.2 h2
    have hET : ∀ b2 α2 β2, α2 < β2 → α2 < plainMinimax fuel b2 true →
        plainMinimax fuel b2 true < β2 →
        (minimax fuel b2 true α2 β2).1 = plainMinimax fuel b2 true :=
      fun b2 α2 β2 h1 h2 h3 => (ih b2 true α2 β2 h1).1 h2 h3
    have hHT : ∀ b2 α2 β2, α2 < β2 → β2 ≤ plainMinimax fuel b2 true →
        β2 ≤ (minimax fuel b2 true α2 β2).1 :=
      fun b2 α2 β2 h1 h2 => (ih b2 true α2 β2 h1).2.1 h2
    have hLT : ∀ b2 α2 β2, α2 < β2 → plainMinimax fuel b2 true ≤ α2 →
        (minimax fuel b2 true α2 β2).1 ≤ α2 :=
      fun b2 α2 β2 h1 h2 => (ih b2 true α2 β2 h1).2.2 h2
    rcases ht : terminalScore b with _ | v
    · cases isMax
      · -- minimizing node
        simp only [minimax, plainMinimax, ht, Bool.false_eq_true, if_false]
        refine ⟨?_, ?_, ?_⟩
        · intro h1 h2
          have hrun := minRows_E (fun b2 α2 β2 => minimax fuel b2 true α2 β2)
            (fun b2 => plainMinimax fuel b2 true) a β
            (foldMinRows (fun b2 => plainMinimax fuel b2 true) b allRows ⊤)
            h1 h2 hrbT hET hHT allRows b ⊤ ⊤ le_top (le_refl _)
            (fun row hrow p hp hpe =>
              foldMinRows_le_of_mem _ b allRows ⊤ row p hrow hp hpe)
          rw [inf_top_eq] at hrun
          obtain ⟨hlow, hup⟩ := hrun
          have hV : β ⊓ foldMinRows (fun b2 => plainMinimax fuel b2 true) b allRows ⊤ =
              foldMinRows (fun b2 => plainMinimax fuel b2 true) b allRows ⊤ :=
            inf_eq_right.mpr (le_of_lt h2)
          rw [hV] at hup
          refine le_antisymm ?_ hlow
          rcases le_total β
            (minRows (fun b2 α2 β2 => minimax fuel b2 true α2 β2) a allRows b ⊤ β).1
            with hc | hc
          · exact absurd (lt_of_le_of_lt (le_trans (le_inf (le_refl β) hc) hup) h2)
              (lt_irrefl β)
          · calc (minRows (fun b2 α2 β2 => minimax fuel b2 true α2 β2) a allRows b ⊤ β).1
                = β ⊓ (minRows (fun b2 α2 β2 => minimax fuel b2 true α2 β2) a allRows b ⊤ β).1 :=
                  (inf_eq_right.mpr hc).symm
              _ ≤ _ := hup
        · intro h1
          have hrun := minRows_H (fun b2 α2 β2 => minimax fuel b2 true α2 β2)
            (fun b2 => plainMinimax fuel b2 true) a β hab hrbT hHT allRows b ⊤ le_top
            (fun row hrow p hp hpe =>
              le_trans h1 (foldMinRows_le_of_mem _ b allRows ⊤ row p hrow hp hpe))
          exact hrun.1
        · intro h1
          rcases foldMinRows_witness (fun b2 => plainMinimax fuel b2 true) b a allRows ⊤ h1
            with htop | ⟨row, hrow, p, hp, hpe, hps⟩
          · exact absurd (lt_of_le_of_lt htop hab) not_top_lt
          · exact minRows_L (fun b2 α2 β2 => minimax fuel b2 true α2 β2)
              (fun b2 => plainMinimax fuel b2 true) a β hab hrbT hLT allRows b ⊤ β
              (inf_top_eq β).symm (Or.inr ⟨row, hrow, p, hp, hpe, hps⟩)
      · -- maximizing node
        simp only [minimax, plainMinimax, ht, if_true]
        refine ⟨?_, ?_, ?_⟩
        · intro h1 h2
          have hrun := maxRows_E (fun b2 α2 β2 => minimax fuel b2 false α2 β2)
            (fun b2 => plainMinimax fuel b2 false) β a
            (foldMaxRows (fun b2 => plainMinimax fuel b2 false) b allRows ⊥)
            h1 h2 hrbF hEF hLF allRows b ⊥ ⊥ bot_le (le_refl _)
            (fun row hrow p hp hpe =>
              le_foldMaxRows_of_mem (fun b2 => plainMinimax fuel b2 false)
                b allRows ⊥ row p hrow hp hpe)
          rw [sup_bot_eq] at hrun
          obtain ⟨hup, hlow⟩ := hrun
          have hV : a ⊔ foldMaxRows (fun b2 => plainMinimax fuel b2 false) b allRows ⊥ =
              foldMaxRows (fun b2 => plainMinimax fuel b2 false) b allRows ⊥ :=
            sup_eq_right.mpr (le_of_lt h1)
          rw [hV] at hlow
          refine le_antisymm hup ?_
          rcases le_total
            (maxRows (fun b2 α2 β2 => minimax fuel b2 false α2 β2) β allRows b ⊥ a).1 a
            with hc | hc
          · exact absurd (lt_of_le_of_lt (le_trans hlow (sup_le (le_refl a) hc)) h1)
              (lt_irrefl _)
          · calc foldMaxRows (fun b2 => plainMinimax fuel b2 false) b allRows ⊥
                ≤ a ⊔ (maxRows (fun b2 α2 β2 => minimax fuel b2 false α2 β2) β allRows b ⊥ a).1 :=
                  hlow
              _ = _ := sup_eq_right.mpr hc
        · intro h1
          rcases foldMaxRows_witness (fun b2 => plainMinimax fuel b2 false) b β allRows ⊥ h1
            with hbot | ⟨row, hrow, p, hp, hpe, hps⟩
          · exact absurd (lt_of_lt_of_le hab hbot) not_lt_bot
          · exact maxRows_H (fun b2 α2 β2 => minimax fuel b2 false α2 β2)
              (fun b2 => plainMinimax fuel b2 false) β a hab hrbF hHF allRows b ⊥ a
              (sup_bot_eq a).symm (Or.inr ⟨row, hrow, p, hp, hpe, hps⟩)
        · intro h1
          have hrun := maxRows_L (fun b2 α2 β2 => minimax fuel b2 false α2 β2)
            (fun b2 => plainMinimax fuel b2 false) β a hab hrbF hLF allRows b ⊥ bot_le
            (fun row hrow p hp hpe =>
              le_trans (le_foldMaxRows_of_mem (fun b2 => plainMinimax fuel b2 false)
                b allRows ⊥ row p hrow hp hpe) h1)
          exact hrun.1
    · have he1 : (minimax (fuel + 1) b isMax a β).1 = v := by
        cases isMax <;> simp [minimax, ht]
      have he2 : plainMinimax (fuel + 1) b isMax = v := by
        cases isMax <;> simp [plainMinimax, ht]
      rw [he1, he2]
      exact ⟨fun _ _ => rfl, fun h => h, fun h => h⟩

theorem minimax_full_window :
    ∀ (fuel : Nat) (b : Board) (isMax : Bool),
      (minimax fuel b isMax ⊥ ⊤).1 = plainMinimax fuel b isMax := by
  intro fuel b isMax
  obtain ⟨hb, ht⟩ := plain_bounds fuel b isMax
  exact (minimax_EHL fuel b isMax ⊥ ⊤ (by decide)).1 hb ht

/-- C2: `minimax` called with `alpha = -inf`, `beta = +inf` returns
exactly the value of the plain unpruned minimax recursion: the
`beta <= alpha` cutoff changes only which subtrees are explored, never the
returned value. -/
theorem minimax_alphabeta_eq_plain :
    ∀ (fuel : Nat) (b : Board) (isMax : Bool),
      (minimax fuel b isMax ⊥ ⊤).1 = plainMinimax fuel b isMax :=
  minimax_full_window

/-! ## Best-move selection (C1) -/

/-- The score `get_best_move` assigns to placing `'O'` at `p`. -/
def moveScore (b : Board) (p : Pos) : EInt :=
  (minimax 9 (setCell b p (some Player.O)) false ⊥ ⊤).1

/-- The empty cells of the board in row-major order. -/
def empties (b : Board) : List Pos :=
  allCells.filter (fun p => b.get p = none)

/-- Fold of the move scores of the empty cells of `cells` (spec side). -/
def scoreFold (b : Board) : List Pos → EInt → EInt
  | [], m => m
  | p :: rest, m =>
    if b.get p = none then scoreFold b rest (m ⊔ moveScore b p)
    else scoreFold b rest m

/-- The maximal move score over all empty cells. -/
def best_val (b : Board) : EInt := scoreFold b allCells ⊥

theorem le_scoreFold (b : Board) :
    ∀ (cells : List Pos) (m : EInt), m ≤ scoreFold b cells m := by
  intro cells
  induction cells with
  | nil => intro m; exact le_refl m
  | cons p rest ih =>
    intro m
    simp only [scoreFold]
    by_cases hp : b.get p = none
    · simp only [hp, if_true, eq_self_iff_true]
      exact le_trans le_sup_left (ih _)
    · simp only [hp, if_false]
      exact ih m

theorem moveScore_le_scoreFold (b : Board) :
    ∀ (cells : List Pos) (m : EInt) (p : Pos), p ∈ cells → b.get p = none →
      moveScore b p ≤ scoreFold b cells m := by
  intro cells
  induction cells with
  | nil => intro m p hp; exact absurd hp (List.not_mem_nil p)
  | cons q rest ih =>
    intro m p hp hem
    rcases List.mem_cons.mp hp with he | hrest
    · subst he
      simp only [scoreFold, hem, if_true]
      exact le_trans le_sup_right (le_scoreFold b rest _)
    · simp only [scoreFold]
      by_cases hq : b.get q = none
      · simp only [hq, if_true, eq_self_iff_true]
        exact ih _ p hrest hem
      · simp only [hq, if_false]
        exact ih m p hrest hem

theorem maxRow_mono (rec : Board → EInt → EInt → EInt × Board) (β : EInt) :
    ∀ (cells : List Pos) (b : Board) (m α : EInt), m ≤ (maxRow rec β cells b m α).1 := by
  intro cells
  induction cells with
  | nil => intro b m α; exact le_refl m
  | cons p rest ih =>
    intro b m α
    simp only [maxRow]
    by_cases hp : b.get p = none
    · simp only [hp, if_true, eq_self_iff_true]
      by_cases hcut : β ≤ α ⊔ (rec (setCell b p (some Player.O)) α β).1
      · simp only [hcut, if_true]
        exact le_sup_left
      · simp only [hcut, if_false]
        exact le_trans le_sup_left (ih _ _ _)
    · simp only [hp, if_false]
      exact ih b m α

theorem maxRows_mono (rec : Board → EInt → EInt → EInt × Board) (β : EInt) :
    ∀ (rows : List (List Pos)) (b : Board) (m α : EInt),
      m ≤ (maxRows rec β rows b m α).1 := by
  intro rows
  induction rows with
  | nil => intro b m α; exact le_refl m
  | cons row rows ih =>
    intro b m α
    simp only [maxRows]
    exact le_trans (maxRow_mono rec β row b m α) (ih _ _ _)

theorem maxRow_ne_bot (rec : Board → EInt → EInt → EInt × Board) (β : EInt)
    (hne : ∀ b2 α2 β2, (rec b2 α2 β2).1 ≠ ⊥) :
    ∀ (cells : List Pos) (b : Board) (m α : EInt),
      (m ≠ ⊥ ∨ ∃ p ∈ cells, b.get p = none) → (maxRow rec β cells b m α).1 ≠ ⊥ := by
  intro cells
  induction cells with
  | nil =>
    intro b m α hyp
    rcases hyp with hm | ⟨p, hp, _⟩
    · exact hm
    · exact absurd hp (List.not_mem_nil p)
  | cons q rest ih =>
    intro b m α hyp
    simp only [maxRow]
    by_cases hq : b.get q = none
    · simp only [hq, if_true, eq_self_iff_true]
      have hne2 : m ⊔ (rec (setCell b q (some Player.O)) α β).1 ≠ ⊥ := by
        intro hcon
        exact hne _ α β (le_bot_iff.mp (le_trans le_sup_right hcon.le))
      by_cases hcut : β ≤ α ⊔ (rec (setCell b q (some Player.O)) α β).1
      · simp only [hcut, if_true]
        exact hne2
      · simp only [hcut, if_false]
        exact ih _ _ _ (Or.inl hne2)
    · simp only [hq, if_false]
      rcases hyp with hm | ⟨p, hp, hpe⟩
      · exact ih b m α (Or.inl hm)
      · rcases List.mem_cons.mp hp with he | hrest
        · subst he
          exact absurd hpe hq
        · exact ih b m α (Or.inr ⟨p, hrest, hpe⟩)

theorem maxRows_ne_bot (rec : Board → EInt → EInt → EInt × Board) (β : EInt)
    (hrecb : ∀ b α2 β2, (rec b α2 β2).2 = b)
    (hne : ∀ b2 α2 β2, (rec b2 α2 β2).1 ≠ ⊥) :
    ∀ (rows : List (List Pos)) (b : Board) (m α : EInt),
      (m ≠ ⊥ ∨ ∃ row ∈ rows, ∃ p ∈ row, b.get p = none) →
      (maxRows rec β rows b m α).1 ≠ ⊥ := by
  intro rows
  induction rows with
  | nil =>
    intro b m α hyp
    rcases hyp with hm | ⟨row, hrow, _⟩
    · exact hm
    · exact absurd hrow (List.not_mem_nil row)
  | cons row rows ih =>
    intro b m α hyp
    simp only [maxRows]
    have hb2 := maxRow_board rec β hrecb row b m α
    rcases hyp with hm | ⟨r2, hr2, p, hp, hpe⟩
    · apply ih
      left
      intro hcon
      exact maxRow_ne_bot rec β hne row b m α (Or.inl hm) (le_bot_iff.mp hcon.le)
    · rcases List.mem_cons.mp hr2 with he | hrest
      · subst he
        apply ih
        left
        intro hcon
        exact maxRow_ne_bot rec β hne r2 b m α (Or.inr ⟨p, hp, hpe⟩) (le_bot_iff.mp hcon.le)
      · rw [hb2]
        exact ih b _ _ (Or.inr ⟨r2, hrest, p, hp, hpe⟩)

theorem minRow_ne_bot (rec : Board → EInt → EInt → EInt × Board) (α : EInt)
    (hne : ∀ b2 α2 β2, (rec b2 α2 β2).1 ≠ ⊥) :
    ∀ (cells : List Pos) (b : Board) (m β : EInt), m ≠ ⊥ →
      (minRow rec α cells b m β).1 ≠ ⊥ := by
  intro cells
  induction cells with
  | nil => intro b m β hm; exact hm
  | cons q rest ih =>
    intro b m β hm
    simp only [minRow]
    by_cases hq : b.get q = none
    · simp only [hq, if_true, eq_self_iff_true]
      have hne2 : m ⊓ (rec (setCell b q (some Player.X)) α β).1 ≠ ⊥ := by
        rcases le_total m (rec (setCell b q (some Player.X)) α β).1 with hc | hc
        · rw [inf_eq_left.mpr hc]; exact hm
        · rw [inf_eq_right.mpr hc]; exact hne _ α β
      by_cases hcut : β ⊓ (rec (setCell b q (some Player.X)) α β).1 ≤ α
      · simp only [hcut, if_true]
        exact hne2
      · simp only [hcut, if_false]
        exact ih _ _ _ hne2
    · simp only [hq, if_false]
      exact ih b m β hm

theorem minRows_ne_bot (rec : Board → EInt → EInt → EInt × Board) (α : EInt)
    (hne : ∀ b2 α2 β2, (rec b2 α2 β2).1 ≠ ⊥) :
    ∀ (rows : List (List Pos)) (b : Board) (m β : EInt), m ≠ ⊥ →
      (minRows rec α rows b m β).1 ≠ ⊥ := by
  intro rows
  induction rows with
  | nil => intro b m β hm; exact hm
  | cons row rows ih =>
    intro b m β hm
    simp only [minRows]
    exact ih _ _ _ (minRow_ne_bot rec α hne row b m β hm)

theorem minimax_ne_bot :
    ∀ (fuel : Nat) (b : Board) (isMax : Bool) (α β : EInt),
      (minimax fuel b isMax α β).1 ≠ ⊥ := by
  intro fuel
  induction fuel with
  | zero =>
    intro b isMax α β
    simp only [minimax]
    rcases ht : terminalScore b with _ | v
    · simp only [Option.getD_none]
      decide
    · simp only [Option.getD_some]
      exact ne_of_gt (terminalScore_bounds b v ht).1
  | succ fuel ih =>
    intro b isMax α β
    rcases ht : terminalScore b with _ | v
    · obtain ⟨row, hrow, p, hp, hpe⟩ :=
        exists_empty_of_not_full b (terminalScore_not_full b ht)
      cases isMax
      · simp only [minimax, ht, Bool.false_eq_true, if_false]
        exact minRows_ne_bot _ α (fun b2 α2 β2 => ih b2 true α2 β2) allRows b ⊤ β
          (by decide)
      · simp only [minimax, ht, if_true]
        exact maxRows_ne_bot _ β (fun b2 α2 β2 => minimax_board fuel b2 false α2 β2)
          (fun b2 α2 β2 => ih b2 false α2 β2) allRows b ⊥ α
          (Or.inr ⟨row, hrow, p, hp, hpe⟩)
    · cases isMax
      · simp only [minimax, ht, Bool.false_eq_true, if_false]
        exact ne_of_gt (terminalScore_bounds b v ht).1
      · simp only [minimax, ht, if_true]
        exact ne_of_gt (terminalScore_bounds b v ht).1

/-- The scan of `get_best_move` keeps the first strict improvement: if no
remaining empty cell beats the running best score the running best move is
returned, and otherwise the result is the first empty cell whose score
equals the maximum. -/
theorem gbmLoop_spec :
    ∀ (cells : List Pos) (b : Board) (bs : EInt) (bm : Pos),
      (scoreFold b cells bs ≤ bs → (gbmLoop cells b bs bm).1 = bm) ∧
      (bs < scoreFold b cells bs →
        (cells.filter (fun p => b.get p = none)).find?
            (fun p => decide (moveScore b p = scoreFold b cells bs)) =
          some (gbmLoop cells b bs bm).1) := by
  intro cells
  induction cells with
  | nil =>
    intro b bs bm
    exact ⟨fun _ => rfl, fun h => absurd h (lt_irrefl bs)⟩
  | cons p rest ih =>
    intro b bs bm
    by_cases hp : b.get p = none
    · have hfc : List.filter (fun q => decide (b.get q = none)) (p :: rest) =
          p :: List.filter (fun q => decide (b.get q = none)) rest := by
        simp [List.filter_cons, hp]
      simp only [gbmLoop, scoreFold, hp, if_true, eq_self_iff_true]
      rw [minimax_board, setCell_restore b p _ hp]
      have hms : (minimax 9 (setCell b p (some Player.O)) false ⊥ ⊤).1 = moveScore b p := rfl
      rw [hms]
      by_cases himp : bs < moveScore b p
      · simp only [himp, if_true]
        rw [sup_eq_right.mpr (le_of_lt himp)]
        constructor
        · intro hM
          exact absurd (lt_of_lt_of_le himp (le_trans (le_scoreFold b rest _) hM))
            (lt_irrefl bs)
        · intro _
          rw [hfc]
          rcases le_or_lt (scoreFold b rest (moveScore b p)) (moveScore b p) with hc | hc
          · have heq : scoreFold b rest (moveScore b p) = moveScore b p :=
              le_antisymm hc (le_scoreFold b rest _)
            rw [List.find?_cons_of_pos _ (by simp [heq]), (ih b (moveScore b p) p).1 (le_of_eq heq)]
          · have hne : ¬ moveScore b p = scoreFold b rest (moveScore b p) := ne_of_lt hc
            rw [List.find?_cons_of_neg _ (by simp [hne])]
            exact (ih b (moveScore b p) p).2 hc
      · simp only [himp, if_false]
        rw [sup_eq_left.mpr (not_lt.mp himp)]
        constructor
        · exact (ih b bs bm).1
        · intro hM
          rw [hfc]
          have hne : ¬ moveScore b p = scoreFold b rest bs :=
            ne_of_lt (lt_of_le_of_lt (not_lt.mp himp) hM)
          rw [List.find?_cons_of_neg _ (by simp [hne])]
          exact (ih b bs bm).2 hM
    · have hfc : List.filter (fun q => decide (b.get q = none)) (p :: rest) =
          List.filter (fun q => decide (b.get q = none)) rest := by
        simp [List.filter_cons, hp]
      simp only [gbmLoop, scoreFold, hp, if_false]
      rw [hfc]
      exact ih b bs bm

theorem best_val_pos (b : Board) (h : ∃ p ∈ allCells, b.get p = none) :
    ⊥ < best_val b := by
  obtain ⟨p, hp, hpe⟩ := h
  refine lt_of_lt_of_le ?_ (moveScore_le_scoreFold b allCells ⊥ p hp hpe)
  exact bot_lt_iff_ne_bot.mpr (minimax_ne_bot 9 (setCell b p (some Player.O)) false ⊥ ⊤)

theorem get_best_move_spec (b : Board) (h : ∃ p ∈ allCells, b.get p = none) :
    (empties b).find? (fun p => decide (moveScore b p = best_val b)) =
      some (get_best_move b).1 :=
  (gbmLoop_spec allCells b ⊥ (0, 0)).2 (best_val_pos b h)

theorem get_best_move_mem (b : Board) (h : ∃ p ∈ allCells, b.get p = none) :
    (get_best_move b).1 ∈ empties b :=
  List.mem_of_find?_eq_some (get_best_move_spec b h)

theorem get_best_move_empty_cell (b : Board) (h : ∃ p ∈ allCells, b.get p = none) :
    b.get (get_best_move b).1 = none := by
  have hm := get_best_move_mem b h
  rw [empties, List.mem_filter] at hm
  exact of_decide_eq_true hm.2

/-- C1: on a board with an empty cell and no completed line,
`get_best_move` returns the first empty cell in row-major scan order whose
minimax score (with `X` to move, full alpha-beta window) attains the
maximum over all empty cells; moreover that score equals the plain
(unpruned) minimax value, so the returned move attains the
game-theoretically optimal value for `O` and ties break in favour of the
earliest row-major move. -/
theorem get_best_move_first_argmax (b : Board)
    (h1 : ∃ p ∈ allCells, b.get p = none)
    (h2 : check_winner_on_board b = none) :
    (empties b).find? (fun p => decide (moveScore b p = best_val b)) =
        some (get_best_move b).1
    ∧ ∀ p : Pos, moveScore b p = plainMinimax 9 (setCell b p (some Player.O)) false := by
  refine ⟨get_best_move_spec b h1, fun p => ?_⟩
  exact minimax_full_window 9 (setCell b p (some Player.O)) false

/-- C1 witness board: eight cells filled, no line, `(2, 2)` free. -/
def nearFullBoard : Board :=
  ⟨some Player.X, some Player.O, some Player.X,
   some Player.X, some Player.O, some Player.O,
   some Player.O, some Player.X, none⟩

theorem get_best_move_first_argmax_witness :
    (∃ p ∈ allCells, nearFullBoard.get p = none) ∧
      check_winner_on_board nearFullBoard = none ∧
      ((empties nearFullBoard).find?
          (fun p => decide (moveScore nearFullBoard p = best_val nearFullBoard)) =
        some (get_best_move nearFullBoard).1
      ∧ ∀ p : Pos, moveScore nearFullBoard p =
          plainMinimax 9 (setCell nearFullBoard p (some Player.O)) false) :=
  ⟨by decide, by decide,
    get_best_move_first_argmax nearFullBoard (by decide) (by decide)⟩

/-! ## The concrete blocking scenario (C9) -/

/-- C9 board: `X` at (0,0) and (0,1), all other cells empty, `O` to move. -/
def c9Board : Board :=
  ⟨some Player.X, some Player.X, none, none, none, none, none, none, none⟩

set_option maxRecDepth 10000 in
set_option maxHeartbeats 4000000 in
/-- C9: with `X` threatening the top row, `get_best_move` returns exactly
the blocking move `(0, 2)`. -/
theorem get_best_move_blocks_top_row :
    (get_best_move c9Board).1 = ((0 : Fin 3), (2 : Fin 3)) := by decide

/-! ## The game session -/

/-- The game mode, `'pvp'` or `'pve'`. -/
inductive Mode where
  | pvp : Mode
  | pve : Mode
deriving DecidableEq, Repr

/-- `self.ai_difficulty`. -/
inductive Difficulty where
  | easy : Difficulty
  | medium : Difficulty
  | hard : Difficulty
deriving DecidableEq, Repr

/-- The session state: the fields of the `TicTacToe` object the game logic
reads and writes.  `game_over` models whether the cell buttons have been
disabled (`disable_all_buttons` on a win or draw); `game_count` is
`self.game_count`, initialized to 0 and never incremented anywhere in the
source. -/
structure GState where
  mode : Mode
  ai_difficulty : Difficulty
  board : Board
  current_player : Player
  game_over : Bool
  game_count : Nat
deriving DecidableEq, Repr

/-- `make_move`: place the current player's mark, then either declare a
winner (disable the buttons), declare a draw (disable the buttons), or
flip the current player. -/
def make_move (s : GState) (row col : Fin 3) : GState :=
  let b2 := setCell s.board (row, col) (some s.current_player)
  match check_winner_on_board b2 with
  | some _ => { s with board := b2, game_over := true }
  | none =>
    if is_draw b2 then { s with board := b2, game_over := true }
    else { s with board := b2, current_player := s.current_player.other }

/-- `handle_click`: an occupied cell or a click during the computer's
turn returns early with no state change; otherwise the move is made. -/
def handle_click (s : GState) (row col : Fin 3) : GState :=
  if s.board.get (row, col) ≠ none then s
  else if s.mode = Mode.pve ∧ s.current_player = Player.O then s
  else make_move s row col

/-- `handle_timeout`: no effect during the computer's turn in pve mode;
otherwise the turn passes to the other player without a move. -/
def handle_timeout (s : GState) : GState :=
  if s.mode = Mode.pve ∧ s.current_player = Player.O then s
  else { s with current_player := s.current_player.other }

/-- `computer_move`, with the two random draws supplied as oracles:
`choice` stands for `random.choice(empty)` and `smart` for the outcome of
`random.random() < 0.7`.  An empty candidate list returns silently. -/
def computer_move (choice : List Pos → Pos) (smart : Bool) (s : GState) : GState :=
  if empties s.board = [] then s
  else
    let p : Pos :=
      match s.ai_difficulty with
      | Difficulty.easy => choice (empties s.board)
      | Difficulty.medium =>
        if smart then (get_best_move s.board).1 else choice (empties s.board)
      | Difficulty.hard => (get_best_move s.board).1
    make_move s p.1 p.2

/-- `start_game`: fresh empty board, enabled buttons; in pvp mode the
first player depends on the parity of `game_count`, in pve mode `X`
always starts. -/
def start_game (s : GState) (mode : Mode) : GState :=
  { s with
    mode := mode
    board := emptyBoard
    game_over := false
    current_player :=
      match mode with
      | Mode.pvp => if s.game_count % 2 = 0 then Player.X else Player.O
      | Mode.pve => Player.X }

/-- `start_game_with_ai`: set the difficulty, then start a pve game. -/
def start_game_with_ai (s : GState) (d : Difficulty) : GState :=
  start_game { s with ai_difficulty := d } Mode.pve

/-- The object state right after `__init__`: what matters for the game
logic is `game_count = 0`; play always starts through `start_game`. -/
def initState (d : Difficulty) : GState :=
  { mode := Mode.pvp, ai_difficulty := d, board := emptyBoard,
    current_player := Player.X, game_over := false, game_count := 0 }

/-- Reachable session states.  Clicks and the automatic computer move are
possible only while the buttons are enabled; `choice` must pick one of
the empty cells, as `random.choice` does; timeout transitions are allowed
only when the index is `true`, so `Reach false` describes the sessions in
which no turn ever times out. -/
inductive Reach : Bool → GState → Prop
  | start (t : Bool) (m : Mode) (d : Difficulty) : Reach t (start_game (initState d) m)
  | click (t : Bool) (s : GState) (row col : Fin 3) :
      Reach t s → s.game_over = false → Reach t (handle_click s row col)
  | computer (t : Bool) (s : GState) (choice : List Pos → Pos) (smart : Bool) :
      Reach t s → s.mode = Mode.pve → s.current_player = Player.O →
      s.game_over = false → choice (empties s.board) ∈ empties s.board →
      Reach t (computer_move choice smart s)
  | timeout (s : GState) :
      Reach true s → s.game_over = false → Reach true (handle_timeout s)
  | newGame (t : Bool) (s : GState) (m : Mode) :
      Reach t s → Reach t (start_game s m)
  | newGameAI (t : Bool) (s : GState) (d : Difficulty) :
      Reach t s → Reach t (start_game_with_ai s d)

theorem make_move_parts (s : GState) (row col : Fin 3) :
    (make_move s row col).board = setCell s.board (row, col) (some s.current_player) ∧
    (make_move s row col).game_count = s.game_count ∧
    (make_move s row col).mode = s.mode ∧
    ((make_move s row col).game_over = true ∨
      ((make_move s row col).game_over = s.game_over ∧
        (make_move s row col).current_player = s.current_player.other)) := by
  simp only [make_move]
  split
  · exact ⟨rfl, rfl, rfl, Or.inl rfl⟩
  · split
    · exact ⟨rfl, rfl, rfl, Or.inl rfl⟩
    · exact ⟨rfl, rfl, rfl, Or.inr ⟨rfl, rfl⟩⟩

theorem handle_click_game_count (s : GState) (row col : Fin 3) :
    (handle_click s row col).game_count = s.game_count := by
  simp only [handle_click]
  split
  · rfl
  · split
    · rfl
    · exact (make_move_parts s row col).2.1

theorem computer_move_game_count (choice : List Pos → Pos) (smart : Bool) (s : GState) :
    (computer_move choice smart s).game_count = s.game_count := by
  simp only [computer_move]
  split
  · rfl
  · exact (make_move_parts s _ _).2.1

/-- `game_count` is never incremented anywhere in the source, so it is 0
in every reachable state. -/
theorem reach_game_count (t : Bool) (s : GState) (h : Reach t s) : s.game_count = 0 := by
  induction h with
  | start t m d => rfl
  | click t s row col hr hov ih => rw [handle_click_game_count]; exact ih
  | computer t s choice smart hr hm hc hov hch ih =>
    rw [computer_move_game_count]; exact ih
  | timeout s hr hov ih =>
    simp only [handle_timeout]
    split
    · exact ih
    · exact ih
  | newGame t s m hr ih => exact ih
  | newGameAI t s d hr ih => exact ih

theorem start_game_current (s : GState) (m : Mode) (h : s.game_count = 0) :
    (start_game s m).current_player = Player.X := by
  cases m <;> simp [start_game, h]

/-- C8: every new game begins with `X` to move — `start_game`, called
from any reachable program state, sets the current player to `X` in both
modes (in pvp mode this relies on `game_count` never being incremented,
so its parity is always even). -/
theorem start_game_first_player_X (t : Bool) (s : GState) (h : Reach t s) (m : Mode) :
    (start_game s m).current_player = Player.X :=
  start_game_current s m (reach_game_count t s h)

theorem start_game_first_player_X_witness :
    (start_game (start_game (initState Difficulty.easy) Mode.pvp) Mode.pvp).current_player =
      Player.X :=
  start_game_first_player_X false _ (Reach.start false Mode.pvp Difficulty.easy) Mode.pvp

/-- C6: a move request on an occupied cell, or made during the computer's
turn in player-vs-computer mode, is rejected with no state mutation: the
handler returns the state unchanged (the early `return` of
`handle_click`). -/
theorem handle_click_rejects_invalid (s : GState) (row col : Fin 3)
    (h : s.board.get (row, col) ≠ none ∨ (s.mode = Mode.pve ∧ s.current_player = Player.O)) :
    handle_click s row col = s := by
  simp only [handle_click]
  rcases h with h1 | h2
  · rw [if_pos h1]
  · by_cases h1 : s.board.get (row, col) ≠ none
    · rw [if_pos h1]
    · rw [if_neg h1, if_pos h2]

/-- A pve session in which the human has marked the top-left cell and the
computer is to move. -/
def clickDemo : GState :=
  { mode := Mode.pve, ai_difficulty := Difficulty.hard,
    board := setCell emptyBoard (0, 0) (some Player.X),
    current_player := Player.O, game_over := false, game_count := 0 }

theorem handle_click_rejects_invalid_witness :
    handle_click clickDemo 0 0 = clickDemo :=
  handle_click_rejects_invalid clickDemo 0 0 (Or.inl (by decide))

/-! ## The mark-count invariant (C7) -/

/-- The number of cells holding player `p`'s mark. -/
def countP (b : Board) (p : Player) : Nat :=
  (if b.a00 = some p then 1 else 0) + (if b.a01 = some p then 1 else 0) +
  (if b.a02 = some p then 1 else 0) + (if b.a10 = some p then 1 else 0) +
  (if b.a11 = some p then 1 else 0) + (if b.a12 = some p then 1 else 0) +
  (if b.a20 = some p then 1 else 0) + (if b.a21 = some p then 1 else 0) +
  (if b.a22 = some p then 1 else 0)

theorem countP_setCell (b : Board) (pos : Pos) (q p : Player) (h : b.get pos = none) :
    countP (setCell b pos (some q)) p = countP b p + (if q = p then 1 else 0) := by
  obtain ⟨⟨i, hi⟩, j, hj⟩ := pos
  interval_cases i <;> interval_cases j <;>
    (simp only [Board.get] at h; simp [countP, setCell, h, Option.some.injEq]) <;> omega

/-- The per-state invariant: before the game is over the mark counts
track whose turn it is; once it is over `X` has equalled or once exceeded
`O`. -/
def balanced (s : GState) : Prop :=
  (s.game_over = false →
    (s.current_player = Player.X → countP s.board Player.X = countP s.board Player.O) ∧
    (s.current_player = Player.O → countP s.board Player.X = countP s.board Player.O + 1)) ∧
  (s.game_over = true →
    countP s.board Player.X = countP s.board Player.O ∨
    countP s.board Player.X = countP s.board Player.O + 1)

theorem make_move_balanced (s : GState) (row col : Fin 3)
    (hov : s.game_over = false) (hb : balanced s)
    (hc : s.board.get (row, col) = none) : balanced (make_move s row col) := by
  obtain ⟨hno, _⟩ := hb
  obtain ⟨hX, hO⟩ := hno hov
  obtain ⟨hboard, _, _, hcase⟩ := make_move_parts s row col
  cases hcur : s.current_player
  · -- X moves
    have hcX := countP_setCell s.board (row, col) Player.X Player.X hc
    have hcO := countP_setCell s.board (row, col) Player.X Player.O hc
    rw [hcur] at hboard
    have hEq := hX hcur
    constructor
    · intro hov2
      rcases hcase with hover | ⟨hsame, hflip⟩
      · rw [hov2] at hover; exact absurd hover (by simp)
      · constructor
        · intro hcur2
          rw [hflip, hcur] at hcur2
          exact absurd hcur2 (by decide)
        · intro _
          rw [hboard, hcX, hcO, hEq]
          simp
    · intro _
      right
      rw [hboard, hcX, hcO, hEq]
      simp
  · -- O moves
    have hcX := countP_setCell s.board (row, col) Player.O Player.X hc
    have hcO := countP_setCell s.board (row, col) Player.O Player.O hc
    rw [hcur] at hboard
    have hEq := hO hcur
    constructor
    · intro hov2
      rcases hcase with hover | ⟨hsame, hflip⟩
      · rw [hov2] at hover; exact absurd hover (by simp)
      · constructor
        · intro _
          rw [hboard, hcX, hcO, hEq]
          simp
        · intro hcur2
          rw [hflip, hcur] at hcur2
          exact absurd hcur2 (by decide)
    · intro _
      left
      rw [hboard, hcX, hcO, hEq]
      simp

theorem start_game_balanced (s : GState) (m : Mode) (h : s.game_count = 0) :
    balanced (start_game s m) := by
  have hcur := start_game_current s m h
  constructor
  · intro _
    constructor
    · intro _
      rfl
    · intro hcur2
      rw [hcur] at hcur2
      exact absurd hcur2 (by decide)
  · intro hov
    have : (start_game s m).game_over = false := by
      cases m <;> rfl
    rw [this] at hov
    exact absurd hov (by simp)

theorem mem_empties (b : Board) (p : Pos) (h : p ∈ empties b) : b.get p = none := by
  rw [empties, List.mem_filter] at h
  exact of_decide_eq_true h.2

theorem empties_ne_nil_exists (b : Board) (h : empties b ≠ []) :
    ∃ p ∈ allCells, b.get p = none := by
  rcases he : empties b with _ | ⟨p, rest⟩
  · exact absurd he h
  · have hp : p ∈ empties b := by rw [he]; exact List.mem_cons_self p rest
    rw [empties, List.mem_filter] at hp
    exact ⟨p, hp.1, of_decide_eq_true hp.2⟩

/-- Without timeouts every reachable state satisfies the count
invariant. -/
theorem reach_balanced (s : GState) (h : Reach false s) : balanced s := by
  generalize hgen : false = t at h
  revert hgen
  induction h with
  | start t2 m d => intro _; exact start_game_balanced (initState d) m rfl
  | click t2 s row col hr hov ih =>
    intro hgen
    have ihb := ih hgen
    simp only [handle_click]
    split
    · exact ihb
    · split
      · exact ihb
      · next h1 _ =>
        exact make_move_balanced s row col hov ihb (of_not_not h1)
  | computer t2 s choice smart hr hm hc hov hch ih =>
    intro hgen
    have ihb := ih hgen
    simp only [computer_move]
    split
    · exact ihb
    · next hne =>
      have hex : ∃ p ∈ allCells, s.board.get p = none := empties_ne_nil_exists s.board hne
      rcases hd : s.ai_difficulty with _ | _ | _
      · simp only [hd]
        exact make_move_balanced s _ _ hov ihb (mem_empties s.board _ hch)
      · simp only [hd]
        cases smart
        · simp only [Bool.false_eq_true, if_false]
          exact make_move_balanced s _ _ hov ihb (mem_empties s.board _ hch)
        · simp only [if_true]
          exact make_move_balanced s _ _ hov ihb (get_best_move_empty_cell s.board hex)
      · simp only [hd]
        exact make_move_balanced s _ _ hov ihb (get_best_move_empty_cell s.board hex)
  | timeout s hr hov ih => intro hgen; exact absurd hgen (by decide)
  | newGame t2 s m hr ih =>
    intro hgen
    exact start_game_balanced s m (reach_game_count t2 s hr)
  | newGameAI t2 s d hr ih =>
    intro hgen
    exact start_game_balanced { s with ai_difficulty := d } Mode.pve
      (reach_game_count t2 s hr)

/-- C7 counterexample state: in a pvp session, `X`'s first turn times out,
then the other player clicks the top-left cell, so `O` has moved first. -/
def timeoutDemo : GState :=
  handle_click (handle_timeout (start_game (initState Difficulty.easy) Mode.pvp)) 0 0

/-- C7, counterexample: after a turn timeout the session reaches a state
whose board has no `X` mark and one `O` mark, so the claimed invariant
`count X - count O ∈ {0, 1}` fails on reachable states once timeouts are
taken into account. -/
theorem count_invariant_counterexample :
    Reach true timeoutDemo ∧
      countP timeoutDemo.board Player.X = 0 ∧
      countP timeoutDemo.board Player.O = 1 := by
  refine ⟨?_, by decide, by decide⟩
  exact Reach.click true _ 0 0
    (Reach.timeout _ (Reach.start true Mode.pvp Difficulty.easy) (by decide))
    (by decide)

/-- C7 (amended): in every session state reachable without turn timeouts
— move application and automatic computer moves included — the number of
`X` marks equals the number of `O` marks or exceeds it by exactly one.
(A timeout passes the turn without placing a mark, which breaks the
invariant, as the counterexample shows.) -/
theorem count_invariant_no_timeout (s : GState) (h : Reach false s) :
    countP s.board Player.X = countP s.board Player.O ∨
    countP s.board Player.X = countP s.board Player.O + 1 := by
  have hb := reach_balanced s h
  cases hov : s.game_over
  · cases hcur : s.current_player
    · exact Or.inl ((hb.1 hov).1 hcur)
    · exact Or.inr ((hb.1 hov).2 hcur)
  · exact hb.2 hov

theorem count_invariant_no_timeout_witness :
    countP (start_game (initState Difficulty.easy) Mode.pve).board Player.X =
        countP (start_game (initState Difficulty.easy) Mode.pve).board Player.O ∨
      countP (start_game (initState Difficulty.easy) Mode.pve).board Player.X =
        countP (start_game (initState Difficulty.easy) Mode.pve).board Player.O + 1 :=
  count_invariant_no_timeout _ (Reach.start false Mode.pve Difficulty.easy)

/-! ## Silent handling of full boards (C10) -/

/-- A full drawn board. -/
def fullBoard : Board :=
  ⟨some Player.X, some Player.O, some Player.X,
   some Player.X, some Player.O, some Player.O,
   some Player.O, some Player.X, some Player.X⟩

/-- A pve session whose board is full. -/
def fullState : GState :=
  { mode := Mode.pve, ai_difficulty := Difficulty.hard, board := fullBoard,
    current_player := Player.O, game_over := false, game_count := 0 }

/-- C10, counterexample: invoked on a full board, `computer_move` silently
returns without moving (no error of any kind), and `get_best_move`
silently returns its fallback `(0, 0)` — an occupied cell — rather than
treating the precondition violation as a fatal, assertable error. -/
theorem computer_move_full_board_counterexample :
    computer_move (fun _ => ((0 : Fin 3), (0 : Fin 3))) true fullState = fullState ∧
      (get_best_move fullBoard).1 = ((0 : Fin 3), (0 : Fin 3)) ∧
      fullBoard.get (0, 0) ≠ none := by
  refine ⟨by decide, by decide, by decide⟩

theorem empties_nil_of_full (b : Board) (h : is_board_full b = true) :
    empties b = [] := by
  rw [empties, List.filter_eq_nil_iff]
  intro p hp
  rw [is_board_full, List.all_eq_true] at h
  simpa using h p hp

theorem gbmLoop_no_empty (b : Board) :
    ∀ (cells : List Pos) (bs : EInt) (bm : Pos),
      (∀ p ∈ cells, b.get p ≠ none) → (gbmLoop cells b bs bm).1 = bm := by
  intro cells
  induction cells with
  | nil => intro bs bm _; rfl
  | cons p rest ih =>
    intro bs bm hall
    simp only [gbmLoop]
    rw [if_neg (hall p (List.mem_cons_self p rest))]
    exact ih bs bm (fun q hq => hall q (List.mem_cons_of_mem p hq))

/-- C10 (amended): on a full board, `computer_move` returns with no move
made and no error signalled, and `get_best_move` returns the initial
fallback move `(0, 0)`; the precondition violation is silently handled
rather than treated as fatal. -/
theorem computer_move_full_board_silent (choice : List Pos → Pos) (smart : Bool)
    (s : GState) (h : is_board_full s.board = true) :
    computer_move choice smart s = s ∧
      (get_best_move s.board).1 = ((0 : Fin 3), (0 : Fin 3)) := by
  constructor
  · simp only [computer_move]
    rw [if_pos (empties_nil_of_full s.board h)]
  · rw [get_best_move]
    apply gbmLoop_no_empty
    intro p hp
    rw [is_board_full, List.all_eq_true] at h
    simpa using h p hp

theorem computer_move_full_board_silent_witness :
    computer_move (fun l => l.headD ((0 : Fin 3), (0 : Fin 3))) false fullState = fullState ∧
      (get_best_move fullState.board).1 = ((0 : Fin 3), (0 : Fin 3)) :=
  computer_move_full_board_silent _ false fullState (by decide)

end TTT
